import Mathlib

/-!
Verification of the MSSB 1099-B converter (`mssb_1099b_to_csv.py`,
`mssb_1099b_to_txf.py`) against its natural-language specification.

The Python sources are shallowly embedded below.  Text is modelled as
`List Char`.  The two regular expressions (`SECTION_EXPR`, `ROW_EXPR`) are
hand-compiled into backtracking matchers that mirror the semantics of
Python's `re` engine (leftmost match, greedy quantifiers trying the longest
alternative first, ordered alternation, `re.MULTILINE` line anchors);
`decimal.Decimal` arithmetic is modelled with exact coefficient/exponent
pairs plus the context rounding (28 significant digits, round-half-even)
that Python applies on every addition.
-/

namespace Mssb

/-- Text is a list of characters. -/
abbrev Chars := List Char

/-! ## Character classes of the Python regexes (ASCII fragment, which covers
every code point the patterns and the claims exercise; the en dash of the
category labels is neither a word character in Python nor here). -/

/-- Python `\s` (ASCII part): space, tab, newline, carriage return,
vertical tab, form feed. -/
def isSpaceChar (c : Char) : Bool :=
  c = ' ' || c = '\t' || c = '\n' || c = '\r' || c = '\x0b' || c = '\x0c'

/-- Python `\d` : decimal digit. -/
def isDigitChar (c : Char) : Bool := '0' ≤ c && c ≤ '9'

/-- Python `[a-zA-Z]`. -/
def isAlphaChar (c : Char) : Bool := ('a' ≤ c && c ≤ 'z') || ('A' ≤ c && c ≤ 'Z')

/-- Python `\w` (ASCII part): letters, digits, underscore. -/
def isWordChar (c : Char) : Bool := isAlphaChar c || isDigitChar c || c = '_'

/-- The class `[\w ]` used for the Description field. -/
def isDescChar (c : Char) : Bool := isWordChar c || c = ' '

/-- The class `[0-9,.]` used for the currency fields. -/
def isMoneyChar (c : Char) : Bool := isDigitChar c || c = ',' || c = '.'

/-! ## Backtracking combinators

A greedy `X+` over a character class tries the longest run first and backs
off one character at a time, exactly like the Python engine.  Combinators
take a continuation `k`; the first candidate for which the continuation
succeeds wins. -/

/-- First success of `f` over a list of candidates, in order. -/
def firstSome (f : α → Option β) : List α → Option β
  | [] => none
  | a :: as =>
    match f a with
    | some b => some b
    | none => firstSome f as

/-- The list `[n, n-1, ..., 1]`: candidate lengths for a greedy `+`. -/
def descRange : Nat → List Nat
  | 0 => []
  | n + 1 => (n + 1) :: descRange n

/-- Length of the maximal run of class-`p` characters at the front. -/
def maxRun (p : Char → Bool) : Chars → Nat
  | [] => 0
  | c :: cs => if p c then maxRun p cs + 1 else 0

/-- Greedy `p+`: hand the capture and the rest to `k`, longest first. -/
def plusG (p : Char → Bool) (s : Chars) (k : Chars → Chars → Option α) : Option α :=
  firstSome (fun n => k (s.take n) (s.drop n)) (descRange (maxRun p s))

/-- A literal character. -/
def lit (c : Char) (s : Chars) (k : Chars → Option α) : Option α :=
  match s with
  | x :: rest => if x = c then k rest else none
  | [] => none

/-- The optional group `(?:(\d+)\s+)?` for RefNumber: try to match it
(greedily, with full backtracking) and fall back to skipping it. -/
def refOpt (s : Chars) (k : Option Chars → Chars → Option α) : Option α :=
  match plusG isDigitChar s (fun cap r1 => plusG isSpaceChar r1 (fun _ r2 => k (some cap) r2)) with
  | some r => some r
  | none => k none s

/-- The group `([a-zA-Z]\d\d)\s+` for PlanNumber: one letter, two digits,
whitespace. -/
def planTry (s : Chars) (k : Option Chars → Chars → Option α) : Option α :=
  match s with
  | a :: b :: c :: rest =>
    if isAlphaChar a && isDigitChar b && isDigitChar c then
      plusG isSpaceChar rest (fun _ r => k (some [a, b, c]) r)
    else none
  | _ => none

/-- The optional group `(?:([a-zA-Z]\d\d)\s+)?` for PlanNumber. -/
def planOpt (s : Chars) (k : Option Chars → Chars → Option α) : Option α :=
  match planTry s k with
  | some r => some r
  | none => k none s

/-- The Quantity token `(\d+\.\d+)`. -/
def qtyTok (s : Chars) (k : Chars → Chars → Option α) : Option α :=
  plusG isDigitChar s fun d1 r1 =>
    lit '.' r1 fun r2 =>
      plusG isDigitChar r2 fun d2 r3 =>
        k (d1 ++ '.' :: d2) r3

/-- A date token `\d+/\d+/\d+`. -/
def dateTok (s : Chars) (k : Chars → Chars → Option α) : Option α :=
  plusG isDigitChar s fun d1 r1 =>
    lit '/' r1 fun r2 =>
      plusG isDigitChar r2 fun d2 r3 =>
        lit '/' r3 fun r4 =>
          plusG isDigitChar r4 fun d3 r5 =>
            k (d1 ++ '/' :: d2 ++ '/' :: d3) r5

/-- The DateAcquired token `(?:\d+/\d+/\d+|\w+)`: ordered alternation,
the date branch first. -/
def dateAcqTok (s : Chars) (k : Chars → Chars → Option α) : Option α :=
  match dateTok s k with
  | some r => some r
  | none => plusG isWordChar s k

/-- A currency token `\$[0-9,.]+`. -/
def moneyTok (s : Chars) (k : Chars → Chars → Option α) : Option α :=
  lit '$' s fun r1 =>
    plusG isMoneyChar r1 fun m r2 =>
      k ('$' :: m) r2

/-- The final mandatory `\s` of ROW_EXPR: exactly one whitespace character;
the consumed character is passed on (the scanner needs it to know whether
the position after the match is a line start). -/
def endTok (s : Chars) (k : Char → Chars → Option α) : Option α :=
  match s with
  | c :: rest => if isSpaceChar c then k c rest else none
  | [] => none

/-- The nine capture groups of ROW_EXPR. -/
structure RowCaps where
  ref : Option Chars
  plan : Option Chars
  desc : Chars
  cusip : Chars
  qty : Chars
  dateAcq : Chars
  dateSold : Chars
  gross : Chars
  cost : Chars
deriving DecidableEq, Repr

/-- One attempt of ROW_EXPR at a line start (the `^` anchor is checked by
the scanner).  Returns the captures, the final whitespace character
consumed by the trailing `\s`, and the remaining text. -/
def rowCore (s : Chars) : Option (RowCaps × Char × Chars) :=
  refOpt s fun ref r1 =>
  planOpt r1 fun plan r2 =>
  plusG isDescChar r2 fun desc r3 =>
  plusG isSpaceChar r3 fun _ r4 =>
  plusG isWordChar r4 fun cusip r5 =>
  plusG isSpaceChar r5 fun _ r6 =>
  qtyTok r6 fun qty r7 =>
  plusG isSpaceChar r7 fun _ r8 =>
  dateAcqTok r8 fun da r9 =>
  plusG isSpaceChar r9 fun _ r10 =>
  dateTok r10 fun ds r11 =>
  plusG isSpaceChar r11 fun _ r12 =>
  moneyTok r12 fun gp r13 =>
  plusG isSpaceChar r13 fun _ r14 =>
  moneyTok r14 fun cb r15 =>
  endTok r15 fun c r16 =>
  some (⟨ref, plan, desc, cusip, qty, da, ds, gp, cb⟩, c, r16)

/-- `ROW_EXPR.finditer`: scan left to right; a match may only start at a
line start (`^` with `re.MULTILINE`); scanning resumes at the end of each
match.  `atStart` records whether the current position is a line start
(position 0, or just after a newline).  The fuel starts at one more than
the length of the text and each step consumes at least one character, so
it never runs out. -/
def rowScanAux : Nat → Bool → Chars → List RowCaps
  | 0, _, _ => []
  | fuel + 1, atStart, s =>
    match (if atStart then rowCore s else none) with
    | some (caps, c, rest) => caps :: rowScanAux fuel (c = '\n') rest
    | none =>
      match s with
      | [] => []
      | c :: cs => rowScanAux fuel (c = '\n') cs

/-- A transaction record (`Row = collections.namedtuple('Row', FIELDS)`).
The optional groups are `None` in Python when unmatched; that is `none`
here, while an empty string is `some []`. -/
structure Row where
  Category : Chars
  RefNumber : Option Chars
  PlanNumber : Option Chars
  Description : Chars
  CUSIP : Chars
  Quantity : Chars
  DateAcquired : Chars
  DateSold : Chars
  GrossProceeds : Chars
  CostBasis : Chars
deriving DecidableEq, Repr

/-- `Row(*((section_name, ) + row_match.groups()))`. -/
def mkRow (sectionName : Chars) (caps : RowCaps) : Row :=
  ⟨sectionName, caps.ref, caps.plan, caps.desc, caps.cusip, caps.qty,
   caps.dateAcq, caps.dateSold, caps.gross, caps.cost⟩

/-- `_parseSection`: one `Row` per match of ROW_EXPR over the section text.
Position 0 of the section text counts as a line start. -/
def parseSection (sectionText : Chars) (sectionName : Chars) : List Row :=
  (rowScanAux (sectionText.length + 1) true sectionText).map (mkRow sectionName)

/-! ## Section extraction (`SECTION_EXPR`) -/

/-- The first category label (`CATEGORIES` key). -/
def shortLabel : Chars := "Short Term – Noncovered Securities".toList

/-- The second category label (`CATEGORIES` key). -/
def longLabel : Chars := "Long Term – Noncovered Securities".toList

/-- The line-start literal terminating a section. -/
def totalLit : Chars := "Total".toList

/-- Match a literal at the front of the text, returning the rest. -/
def litMatch : Chars → Chars → Option Chars
  | [], s => some s
  | _ :: _, [] => none
  | p :: ps, c :: cs => if c = p then litMatch ps cs else none

/-- The alternation `(Short Term – Noncovered Securities|Long Term – Noncovered
Securities)`, tried in the order of `CATEGORIES_PATTERN`. -/
def labelAt (s : Chars) : Option (Chars × Chars) :=
  match litMatch shortLabel s with
  | some rest => some (shortLabel, rest)
  | none =>
    match litMatch longLabel s with
    | some rest => some (longLabel, rest)
    | none => none

/-- The `^Total` attempt at the current position: only at a line start. -/
def tryTotal (atStart : Bool) (s : Chars) : Option Chars :=
  if atStart then litMatch totalLit s else none

/-- The lazy `(.*?)^Total` (with `re.DOTALL` and `re.MULTILINE`): the
shortest body after which `Total` matches at a line start.  `atStart`
says whether the current position is a line start.  Returns the body and
the rest after `Total`. -/
def findTotal (atStart : Bool) (s : Chars) : Option (Chars × Chars) :=
  if (tryTotal atStart s).isSome then
    (tryTotal atStart s).map fun rest => (([] : Chars), rest)
  else
    match s with
    | [] => none
    | c :: cs => (findTotal (c = '\n') cs).map fun p => (c :: p.1, p.2)

/-- `SECTION_EXPR.finditer`: scan for the leftmost label whose section is
terminated; emit `(label, body)` and resume after the consumed `Total`.
The label cannot sit at a line start boundary issue: `^Total` is checked
from the position right after the label, which is never a line start
because every label ends in `s`.  Fuel as in `rowScanAux`. -/
def sectionScanAux : Nat → Chars → List (Chars × Chars)
  | 0, _ => []
  | fuel + 1, s =>
    (labelAt s).elim
      (match s with
       | [] => []
       | _ :: cs => sectionScanAux fuel cs)
      fun pr =>
        (findTotal false pr.2).elim
          (match s with
           | [] => []
           | _ :: cs => sectionScanAux fuel cs)
          fun bp => (pr.1, bp.1) :: sectionScanAux fuel bp.2

/-- All sections of a document, in document order. -/
def findSections (t : Chars) : List (Chars × Chars) :=
  sectionScanAux (t.length + 1) t

/-- `parsePdf`, after the external `pdftotext` call: the rows of every
section, concatenated in document order.  The text-acquisition subprocess
is outside the model; this function receives its output. -/
def parsePdfText (t : Chars) : List Row :=
  (findSections t).flatMap fun s => parseSection s.2 s.1

/-! ## Section extraction described by the spec's words

`specSections` is a second definition of section extraction, following the
specification text rather than the regex: "A section begins at a literal
occurrence of one of the fixed category labels and ends at the first
subsequent line beginning with the literal word Total"; an occurrence with
no terminator yields nothing; occurrences inside an already matched
section are skipped (the cursor); sections appear in document order. -/

/-- The label (if any) literally occurring at position `p` of `t`. -/
def labelAtPos (t : Chars) (p : Nat) : Option Chars :=
  (labelAt (t.drop p)).map Prod.fst

/-- Whether position `q` of `t` is a line start: the very beginning of the
text, or just after a newline. -/
def isLineStartPos (t : Chars) (q : Nat) : Bool :=
  q = 0 || t.get? (q - 1) = some '\n'

/-- Whether the literal `Total` occurs at position `q`, at a line start. -/
def isTotalStart (t : Chars) (q : Nat) : Bool :=
  isLineStartPos t q && (litMatch totalLit (t.drop q)).isSome

/-- The first position `q ≥ e` at which a line begins with `Total`, on
explicit fuel (the fuel only runs out past the end of the text). -/
def firstTotalFromF (t : Chars) : Nat → Nat → Option Nat
  | 0, _ => none
  | fuel + 1, e =>
    if e ≤ t.length then
      if isTotalStart t e then some e else firstTotalFromF t fuel (e + 1)
    else none

/-- The first position `q ≥ e` at which a line begins with `Total`. -/
def firstTotalFrom (t : Chars) (e : Nat) : Option Nat :=
  firstTotalFromF t (t.length + 1 - e) e

/-- All label occurrences at positions `≥ p`, on explicit fuel. -/
def occsFromF (t : Chars) : Nat → Nat → List (Nat × Chars)
  | 0, _ => []
  | fuel + 1, p =>
    if p ≤ t.length then
      match labelAtPos t p with
      | some lab => (p, lab) :: occsFromF t fuel (p + 1)
      | none => occsFromF t fuel (p + 1)
    else []

/-- All label occurrences of `t` at positions `≥ p`, in document order. -/
def occsFrom (t : Chars) (p : Nat) : List (Nat × Chars) :=
  occsFromF t (t.length + 1 - p) p

/-- The contiguous span of `t` from position `a` up to (excluding) `b`. -/
def slice (t : Chars) (a b : Nat) : Chars := (t.drop a).take (b - a)

/-- Process the label occurrences in document order with a cursor: an
occurrence inside an already emitted section is skipped; an occurrence
with no subsequent line-start `Total` yields nothing; otherwise the span
from the end of the label to that first `Total` is a section and the
cursor moves past the consumed `Total`. -/
def specSectionsGo (t : Chars) : List (Nat × Chars) → Nat → List (Chars × Chars)
  | [], _ => []
  | (p, lab) :: rest, cursor =>
    if p < cursor then specSectionsGo t rest cursor
    else
      match firstTotalFrom t (p + lab.length) with
      | none => specSectionsGo t rest cursor
      | some q =>
        (lab, slice t (p + lab.length) q) ::
          specSectionsGo t rest (q + totalLit.length)

/-- Section extraction in the words of the specification. -/
def specSections (t : Chars) : List (Chars × Chars) :=
  specSectionsGo t (occsFrom t 0) 0

/-! ## Decimal arithmetic (`decimal.Decimal` under the default context)

A finite nonnegative decimal is a coefficient together with an exponent
(all values in this program are nonnegative: no pattern admits a sign).
`Decimal(string)` is exact; every addition rounds its exact result to the
context precision of 28 significant digits with round-half-even. -/

/-- A finite nonnegative `Decimal`: `coeff * 10 ^ exp`. -/
structure Dec where
  coeff : Nat
  exp : Int
deriving DecidableEq, Repr

/-- The default context precision (`decimal.getcontext().prec`). -/
def decPrec : Nat := 28

/-- One decimal digit as a character. -/
def digitChar : Nat → Char
  | 0 => '0' | 1 => '1' | 2 => '2' | 3 => '3' | 4 => '4'
  | 5 => '5' | 6 => '6' | 7 => '7' | 8 => '8' | _ => '9'

/-- The decimal digit string of a natural number, on explicit fuel (the
fuel only runs out at `n = 0`, already a base case). -/
def natDigitsF : Nat → Nat → Chars
  | 0, n => [digitChar n]
  | fuel + 1, n =>
    if n < 10 then [digitChar n]
    else natDigitsF fuel (n / 10) ++ [digitChar (n % 10)]

/-- The decimal digit string of a natural number (`str(n)`). -/
def natDigits (n : Nat) : Chars := natDigitsF n n

/-- The number of decimal digits of a natural number, on explicit fuel. -/
def numLenF : Nat → Nat → Nat
  | 0, _ => 1
  | fuel + 1, n => if n < 10 then 1 else numLenF fuel (n / 10) + 1

/-- The number of decimal digits of a natural number (`len(str(n))`). -/
def numLen (n : Nat) : Nat := numLenF n n

/-- Numeric value of a digit character. -/
def digitVal (c : Char) : Nat := c.toNat - '0'.toNat

/-- Value of a digit string. -/
def digitsToNat (ds : Chars) : Nat := ds.foldl (fun a c => 10 * a + digitVal c) 0

/-- `decimal.Decimal(s)` on the alphabet the program feeds it (digits and
a decimal point, after `D` strips `$` and `,`): exact, `none` on the
strings the constructor rejects (`InvalidOperation`). -/
def parseDec (s : Chars) : Option Dec :=
  let intPart := s.takeWhile isDigitChar
  let rest := s.dropWhile isDigitChar
  match rest with
  | [] => if intPart.isEmpty then none else some ⟨digitsToNat intPart, 0⟩
  | c :: frac =>
    if c = '.' && frac.all isDigitChar && !(intPart.isEmpty && frac.isEmpty) then
      some ⟨digitsToNat (intPart ++ frac), -(frac.length : Int)⟩
    else none

/-- The coefficient of `d` rewritten at the smaller-or-equal exponent `e`. -/
def alignCoeff (d : Dec) (e : Int) : Nat := d.coeff * 10 ^ (d.exp - e).toNat

/-- Exact addition: align at the smaller exponent and add coefficients. -/
def addExact (a b : Dec) : Dec :=
  ⟨alignCoeff a (min a.exp b.exp) + alignCoeff b (min a.exp b.exp), min a.exp b.exp⟩

/-- Drop `d` trailing digits of `c`, rounding half to even. -/
def roundHalfEven (c d : Nat) : Nat :=
  if 2 * (c % 10 ^ d) > 10 ^ d then c / 10 ^ d + 1
  else if 2 * (c % 10 ^ d) < 10 ^ d then c / 10 ^ d
  else if c / 10 ^ d % 2 = 0 then c / 10 ^ d else c / 10 ^ d + 1

/-- Round to the context precision of 28 significant digits (round half
even), as Python does on the exact result of every arithmetic operation.
If rounding up overflows to 29 digits the coefficient is a power of ten
and one more digit is dropped exactly. -/
def ctxRound (x : Dec) : Dec :=
  if numLen x.coeff ≤ decPrec then x
  else
    let d := numLen x.coeff - decPrec
    let q := roundHalfEven x.coeff d
    if numLen q ≤ decPrec then ⟨q, x.exp + d⟩ else ⟨q / 10, x.exp + d + 1⟩

/-- `Decimal.__add__` under the default context. -/
def pyAdd (a b : Dec) : Dec := ctxRound (addExact a b)

/-- `Decimal(0)`, the implicit start value of `sum`. -/
def decZero : Dec := ⟨0, 0⟩

/-- The exact (unrounded) decimal sum of a list. -/
def exactSum (ds : List Dec) : Dec := ds.foldl addExact decZero

/-- `sum(...)` over decimals: a left fold of context additions. -/
def pySum (ds : List Dec) : Dec := ds.foldl pyAdd decZero

/-- The rational value of a decimal. -/
def decValQ (d : Dec) : ℚ := (d.coeff : ℚ) * (10 : ℚ) ^ d.exp

/-- Insert a thousands separator every three characters, counted from the
right; the input arrives reversed. -/
def groupRevF : Nat → Chars → Chars
  | 0, l => l
  | fuel + 1, l =>
    if l.length ≤ 3 then l
    else l.take 3 ++ ',' :: groupRevF fuel (l.drop 3)

/-- See `groupRevF`; the fuel `l.length` always suffices. -/
def groupRev (l : Chars) : Chars := groupRevF l.length l

/-- Thousands separators for an integer-part digit string. -/
def withThousands (s : Chars) : Chars := (groupRev s.reverse).reverse

/-- An exponent rendered as Python's `'%+d'`. -/
def expDigits (e : Int) : Chars :=
  (if e < 0 then ['-'] else ['+']) ++ natDigits e.natAbs

/-- `format(d, ',')` on a finite nonnegative decimal: fixed notation with
thousands separators when the exponent is nonpositive and the adjusted
exponent is at least -6, scientific notation otherwise (the algorithm of
`Decimal.__format__`). -/
def pyFormatComma (x : Dec) : Chars :=
  let digs := natDigits x.coeff
  let leftdigits : Int := x.exp + digs.length
  let dotplace : Int := if x.exp ≤ 0 ∧ leftdigits > -6 then leftdigits else 1
  let intPart : Chars :=
    if dotplace ≤ 0 then ['0']
    else if dotplace ≥ (digs.length : Int) then
      digs ++ List.replicate (dotplace - (digs.length : Int)).toNat '0'
    else digs.take dotplace.toNat
  let fracPart : Chars :=
    if dotplace ≤ 0 then List.replicate (-dotplace).toNat '0' ++ digs
    else if dotplace ≥ (digs.length : Int) then []
    else digs.drop dotplace.toNat
  let expOut : Int := leftdigits - dotplace
  withThousands intPart ++ (if fracPart.isEmpty then [] else '.' :: fracPart) ++
    (if expOut = 0 then [] else 'E' :: expDigits expOut)

/-! ## Aggregation (`mergeRows`) -/

/-- The helper `D`: strip `$` and `,`, then construct a decimal. -/
def moneyToDec (s : Chars) : Option Dec :=
  parseDec (s.filter fun c => !(c = '$' || c = ','))

/-- `string.startswith('$')`. -/
def startsWithDollar : Chars → Bool
  | [] => false
  | c :: _ => c = '$'

/-- `sumColumn`: the dollar prefix follows the group's first member; the
values are summed as decimals and formatted with thousands separators.
`none` models the exception Python raises on a malformed value. -/
def sumColumn (vals : List Chars) : Option Chars :=
  match vals with
  | [] => none
  | v0 :: _ =>
    (vals.mapM moneyToDec).map fun ds =>
      (if startsWithDollar v0 then ['$'] else []) ++ pyFormatComma (pySum ds)

/-- The grouping key `(Category, Description, CUSIP, DateAcquired, DateSold)`. -/
abbrev GKey := Chars × Chars × Chars × Chars × Chars

/-- The grouping key of a row. -/
def rowKey (r : Row) : GKey :=
  (r.Category, r.Description, r.CUSIP, r.DateAcquired, r.DateSold)

/-- `groups.setdefault(group_by, []).append(row)` over an insertion-ordered
association list (Python dicts preserve insertion order). -/
def addToGroups : List (GKey × List Row) → Row → List (GKey × List Row)
  | [], r => [(rowKey r, [r])]
  | (k, g) :: rest, r =>
    if k = rowKey r then (k, g ++ [r]) :: rest
    else (k, g) :: addToGroups rest r

/-- The groups of a row list, keyed and in first-encounter order. -/
def buildGroups (rows : List Row) : List (GKey × List Row) :=
  rows.foldl addToGroups []

/-- `mergeHelper`: the first member with RefNumber and PlanNumber cleared
to the empty string and the three numeric columns replaced by their sums. -/
def mergeHelper (group : List Row) : Option Row :=
  match group with
  | [] => none
  | g0 :: _ => do
    let q ← sumColumn (group.map Row.Quantity)
    let gp ← sumColumn (group.map Row.GrossProceeds)
    let cb ← sumColumn (group.map Row.CostBasis)
    some { g0 with RefNumber := some [], PlanNumber := some [],
                   Quantity := q, GrossProceeds := gp, CostBasis := cb }

/-- `mergeRows` (which rebinds `rows[:]` in Python; modelled as returning
the new list).  `none` models the exception raised on malformed numbers. -/
def mergeRows (rows : List Row) : Option (List Row) :=
  (buildGroups rows).mapM fun kg => mergeHelper kg.2

/-- The distinct keys of a row list, in first-encounter order. -/
def firstKeys (rows : List Row) : List GKey := (buildGroups rows).map Prod.fst

/-! ## Sorting (`sortRows`) -/

/-- Code-point comparison of characters, as Python compares strings. -/
def chCmp (a b : Char) : Ordering :=
  if a < b then .lt else if b < a then .gt else .eq

/-- Lexicographic string comparison (Python `str` comparison). -/
def strCmp : Chars → Chars → Ordering
  | [], [] => .eq
  | [], _ :: _ => .lt
  | _ :: _, [] => .gt
  | a :: as, b :: bs =>
    match chCmp a b with
    | .eq => strCmp as bs
    | o => o

/-- Comparison of the RefNumber components of two sort keys.  Python
compares `None` with a string by raising `TypeError`; that is `none`. -/
def refCmp : Option Chars → Option Chars → Option Ordering
  | none, none => some .eq
  | some a, some b => some (strCmp a b)
  | _, _ => none

/-- Comparison of the sort keys
`(Category, Description, DateAcquired, DateSold, RefNumber)`; `none` when
Python's tuple comparison raises (mixed `None`/string RefNumber reached). -/
def keyCmp (r1 r2 : Row) : Option Ordering :=
  match strCmp r1.Category r2.Category with
  | .eq =>
    match strCmp r1.Description r2.Description with
    | .eq =>
      match strCmp r1.DateAcquired r2.DateAcquired with
      | .eq =>
        match strCmp r1.DateSold r2.DateSold with
        | .eq => refCmp r1.RefNumber r2.RefNumber
        | o => some o
      | o => some o
    | o => some o
  | o => some o

/-- The RefNumber as a plain string, reading an absent one as empty. -/
def refFallback (r : Row) : Chars := r.RefNumber.getD []

/-- The `≤` the sort uses.  Where `keyCmp` is defined this is exactly
Python's ordering; where Python would raise (`keyCmp = none`) the model
falls back to comparing RefNumbers as strings so that the relation is
total — theorems about `sortRows` carry a definedness hypothesis. -/
def rowLe (r1 r2 : Row) : Bool :=
  match keyCmp r1 r2 with
  | some Ordering.gt => false
  | some _ => true
  | none => !(strCmp (refFallback r1) (refFallback r2) = Ordering.gt)

/-- `rows.sort(key=...)`: a stable sort by the key — Python's timsort and
a stable merge sort agree wherever the comparison is defined. -/
def sortRows (rows : List Row) : List Row := rows.mergeSort rowLe

/-! ## Tabular rendering (`csv.writer` / `csv.reader`, default dialect) -/

/-- The output header `FIELDS`. -/
def fieldNames : List Chars :=
  ["Category".toList, "RefNumber".toList, "PlanNumber".toList,
   "Description".toList, "CUSIP".toList, "Quantity".toList,
   "DateAcquired".toList, "DateSold".toList, "GrossProceeds".toList,
   "CostBasis".toList]

/-- The field strings of a row in `FIELDS` order; the writer renders
`None` as the empty string. -/
def rowToStrings (r : Row) : List Chars :=
  [r.Category, r.RefNumber.getD [], r.PlanNumber.getD [], r.Description,
   r.CUSIP, r.Quantity, r.DateAcquired, r.DateSold, r.GrossProceeds,
   r.CostBasis]

/-- The Python field values of a row in `FIELDS` order, `None` kept
distinct from the empty string. -/
def pyValues (r : Row) : List (Option Chars) :=
  [some r.Category, r.RefNumber, r.PlanNumber, some r.Description,
   some r.CUSIP, some r.Quantity, some r.DateAcquired, some r.DateSold,
   some r.GrossProceeds, some r.CostBasis]

/-- `QUOTE_MINIMAL`: quote a field containing the delimiter, the quote
character, or a line-terminator character. -/
def needsQuote (f : Chars) : Bool :=
  f.any fun c => c = ',' || c = '"' || c = '\r' || c = '\n'

/-- Double every quote character. -/
def escapeQuotes : Chars → Chars
  | [] => []
  | c :: cs =>
    if c = '"' then '"' :: '"' :: escapeQuotes cs else c :: escapeQuotes cs

/-- One encoded field.  `single` is true when the field is the only one of
its record: a lone empty field is quoted (so that the record is not an
empty line). -/
def writeField (single : Bool) (f : Chars) : Chars :=
  if needsQuote f || (single && f.isEmpty) then '"' :: escapeQuotes f ++ ['"']
  else f

/-- The comma-joined encoded fields after the first. -/
def writeFieldsTail : List Chars → Chars
  | [] => []
  | f :: fs => ',' :: writeField false f ++ writeFieldsTail fs

/-- One encoded record, terminated by the default `\r\n`. -/
def writeRecord : List Chars → Chars
  | [] => ['\r', '\n']
  | [f] => writeField true f ++ ['\r', '\n']
  | f :: fs => writeField false f ++ writeFieldsTail fs ++ ['\r', '\n']

/-- `csv.writer.writerows`. -/
def writeCsv (records : List (List Chars)) : Chars :=
  (records.map writeRecord).flatten

/-- The tabular output of the CLI: the header row, then one row per record. -/
def writeTabular (rows : List Row) : Chars :=
  writeCsv (fieldNames :: rows.map rowToStrings)

/-- Read a quoted field after its opening quote: a doubled quote is a
literal quote, a single one closes the field. -/
def parseQuoted (s : Chars) : Option (Chars × Chars) :=
  match s with
  | [] => none
  | c :: rest =>
    if c = '"' then
      match rest with
      | d :: rest2 =>
        if d = '"' then (parseQuoted rest2).map fun p => ('"' :: p.1, p.2)
        else some ([], rest)
      | [] => some ([], [])
    else (parseQuoted rest).map fun p => (c :: p.1, p.2)
termination_by s.length
decreasing_by all_goals simp_arith

/-- Read one field: quoted if it starts with a quote, otherwise everything
up to the next delimiter or line end. -/
def parseField (s : Chars) : Option (Chars × Chars) :=
  match s with
  | [] => some ([], [])
  | c :: rest =>
    if c = '"' then parseQuoted rest
    else
      some (s.takeWhile (fun x => !(x = ',' || x = '\r' || x = '\n')),
            s.dropWhile (fun x => !(x = ',' || x = '\r' || x = '\n')))

/-- Reading a quoted field consumes at least the closing quote. -/
theorem parseQuoted_length :
    ∀ (s : Chars) {f rest : Chars}, parseQuoted s = some (f, rest) →
      rest.length < s.length := by
  intro s
  induction s using parseQuoted.induct with
  | case1 => intro f rest h; simp [parseQuoted] at h
  | case2 rest2 ih =>
    intro f rest h
    simp only [parseQuoted, reduceIte] at h
    cases h1 : parseQuoted rest2 with
    | none => rw [h1] at h; simp at h
    | some p =>
      rw [h1] at h
      simp only [Option.map, Option.some.injEq, Prod.mk.injEq] at h
      obtain ⟨hf, hr⟩ := h
      subst hr
      have := ih h1
      simp only [List.length_cons]
      omega
  | case3 d rest2 hd =>
    intro f rest h
    simp only [parseQuoted, reduceIte] at h
    rw [if_neg hd] at h
    simp only [Option.some.injEq, Prod.mk.injEq] at h
    obtain ⟨hf, hr⟩ := h
    subst hr
    simp
  | case4 =>
    intro f rest h
    simp only [parseQuoted, reduceIte, Option.some.injEq, Prod.mk.injEq] at h
    obtain ⟨hf, hr⟩ := h
    subst hr
    simp
  | case5 c rest hc ih =>
    intro f r h
    rw [parseQuoted.eq_def] at h
    simp only [] at h
    rw [if_neg hc] at h
    cases h1 : parseQuoted rest with
    | none => rw [h1] at h; simp at h
    | some p =>
      rw [h1] at h
      simp only [Option.map, Option.some.injEq, Prod.mk.injEq] at h
      obtain ⟨hf, hr⟩ := h
      subst hr
      have := ih h1
      simp only [List.length_cons]
      omega

/-- Reading one field never produces a longer rest. -/
theorem parseField_length {s f rest : Chars} (h : parseField s = some (f, rest)) :
    rest.length ≤ s.length := by
  match s with
  | [] =>
    simp only [parseField, Option.some.injEq, Prod.mk.injEq] at h
    obtain ⟨hf, hr⟩ := h; subst hr; simp
  | c :: cs =>
    rw [parseField] at h
    by_cases hq : c = '"'
    · rw [if_pos hq] at h
      have := parseQuoted_length _ h
      simp only [List.length_cons]
      omega
    · rw [if_neg hq] at h
      simp only [Option.some.injEq, Prod.mk.injEq] at h
      obtain ⟨hf, hr⟩ := h
      subst hr
      exact (List.dropWhile_sublist _).length_le

/-- Read the fields of one record up to and including its `\r\n`. -/
def parseRecordAux (s : Chars) : Option (List Chars × Chars) :=
  match h : parseField s with
  | none => none
  | some (f, rest) =>
    match rest with
    | [] => none
    | c :: rest1 =>
      if c = ',' then (parseRecordAux rest1).map fun p => (f :: p.1, p.2)
      else
        match rest1 with
        | [] => none
        | d :: rest2 =>
          if c = '\r' && d = '\n' then some ([f], rest2) else none
termination_by s.length
decreasing_by
  have := parseField_length h
  simp only [List.length_cons] at this ⊢
  omega

/-- Inversion of `parseRecordAux`: a successfully read record starts with
a field followed by either a comma and a shorter record or the line
terminator. -/
theorem parseRecordAux_split {s : Chars} {fs : List Chars} {r : Chars}
    (hpr : parseRecordAux s = some (fs, r)) :
    ∃ f rest, parseField s = some (f, rest) ∧
      ((∃ rest1 p, rest = ',' :: rest1 ∧ parseRecordAux rest1 = some p ∧
          fs = f :: p.1 ∧ r = p.2) ∨
       (rest = '\r' :: '\n' :: r ∧ fs = [f])) := by
  rw [parseRecordAux.eq_def] at hpr
  split at hpr
  · exact absurd hpr (by simp)
  · next f rest h2 =>
    refine ⟨f, rest, h2, ?_⟩
    split at hpr
    · exact absurd hpr (by simp)
    · next c rest1 =>
      split at hpr
      · next hc =>
        subst hc
        cases h3 : parseRecordAux rest1 with
        | none => rw [h3] at hpr; exact absurd hpr (by simp)
        | some p =>
          rw [h3] at hpr
          simp only [Option.map, Option.some.injEq, Prod.mk.injEq] at hpr
          obtain ⟨hf, hr⟩ := hpr
          exact Or.inl ⟨rest1, p, rfl, h3, hf.symm, hr.symm⟩
      · next hc =>
        split at hpr
        · exact absurd hpr (by simp)
        · next d rest2 =>
          split at hpr
          · next hcd =>
            simp only [Option.some.injEq, Prod.mk.injEq] at hpr
            obtain ⟨hf, hr⟩ := hpr
            simp only [Bool.and_eq_true, decide_eq_true_eq] at hcd
            subst hr
            exact Or.inr ⟨by rw [hcd.1, hcd.2], hf.symm⟩
          · exact absurd hpr (by simp)

/-- Reading one record consumes at least its line terminator. -/
theorem parseRecordAux_len_aux : ∀ (n : Nat) (s : Chars), s.length ≤ n →
    ∀ {fs rest}, parseRecordAux s = some (fs, rest) → rest.length < s.length := by
  intro n
  induction n with
  | zero =>
    intro s hs fs rest hpr
    obtain ⟨f, r0, hpf, hcase⟩ := parseRecordAux_split hpr
    have := parseField_length hpf
    rcases hcase with ⟨rest1, p, hre, _, _, _⟩ | ⟨hre, _⟩ <;>
      (subst hre; simp only [List.length_cons] at this; omega)
  | succ n ih =>
    intro s hs fs rest hpr
    obtain ⟨f, r0, hpf, hcase⟩ := parseRecordAux_split hpr
    have hl := parseField_length hpf
    rcases hcase with ⟨rest1, p, hre, hpr1, hfs, hrr⟩ | ⟨hre, _⟩
    · subst hre
      simp only [List.length_cons] at hl
      have h2 := ih rest1 (by omega) hpr1
      subst hrr
      omega
    · subst hre
      simp only [List.length_cons] at hl
      omega

/-- Reading one record consumes at least one character. -/
theorem parseRecordAux_length {s : Chars} {fs rest}
    (hpr : parseRecordAux s = some (fs, rest)) : rest.length < s.length :=
  parseRecordAux_len_aux s.length s le_rfl hpr

/-! ## Interchange rendering (`mssb_1099b_to_txf.py`) -/

/-- `CATEGORIES`: the fixed category-to-code table. -/
def CATEGORIES : List (Chars × Chars) :=
  [(shortLabel, "711".toList), (longLabel, "713".toList)]

/-- Dictionary lookup `CATEGORIES[category]`; `none` models the `KeyError`
on an unknown category. -/
def lookupCategory (c : Chars) : Option Chars :=
  (CATEGORIES.find? fun p => p.1 = c).map Prod.snd

/-- `' '.join(parts)`. -/
def joinSpace : List Chars → Chars
  | [] => []
  | [p] => p
  | p :: ps => p ++ ' ' :: joinSpace ps

/-- The P-line description: RefNumber, PlanNumber and Description joined
by single spaces; `filter(None, ...)` drops both `None` entries and empty
strings. -/
def descriptionOf (r : Row) : Chars :=
  joinSpace (([r.RefNumber, r.PlanNumber, some r.Description].filterMap id).filter
    fun p => !p.isEmpty)

/-- The lines `parseAndPrintRow` prints for one record; `none` models the
`KeyError` on a category outside the table. -/
def parseAndPrintRowLines (r : Row) : Option (List Chars) :=
  (lookupCategory r.Category).map fun code =>
    ["TD".toList, 'N' :: code, "C1".toList, "L1".toList,
     'P' :: descriptionOf r, 'D' :: r.DateAcquired, 'D' :: r.DateSold,
     r.CostBasis, r.GrossProceeds, "$".toList, "^".toList]

/-- The observable outcome of the interchange-mode CLI: either a usage
error (`sys.exit(message)`: the message goes to standard error and the
process exits with status 1, printing no interchange output), or a normal
run over the single input path. -/
inductive TxfOutcome where
  | usage (message : Chars) (exitCode : Nat)
  | run (path : Chars)
deriving DecidableEq, Repr

/-- The usage message `f'Usage: {sys.argv[0]} path-to-1099b-pdf'`. -/
def usageMsg (argv : List Chars) : Chars :=
  "Usage: ".toList ++ argv.headD [] ++ " path-to-1099b-pdf".toList

/-- The `__main__` guard of the interchange mode: `sys.argv` has the
program name first; any count other than exactly one further argument is
a usage error. -/
def txfMain (argv : List Chars) : TxfOutcome :=
  if argv.length ≠ 2 then TxfOutcome.usage (usageMsg argv) 1
  else TxfOutcome.run (argv.getD 1 [])

/-! ## Inversion lemmas for the row matcher -/

/-- A success of `firstSome` is a success of `f` on some candidate. -/
theorem firstSome_ex {f : α → Option β} {r : β} :
    ∀ {l : List α}, firstSome f l = some r → ∃ a ∈ l, f a = some r := by
  intro l
  induction l with
  | nil => intro h; simp [firstSome] at h
  | cons a as ih =>
    intro h
    rw [firstSome] at h
    cases h1 : f a with
    | some b => rw [h1] at h; cases h; exact ⟨a, by simp, h1⟩
    | none =>
      rw [h1] at h
      obtain ⟨x, hx, hfx⟩ := ih h
      exact ⟨x, by simp [hx], hfx⟩

/-- A success of a greedy `p+` is a success of the continuation. -/
theorem plusG_ex {p : Char → Bool} {s : Chars} {k : Chars → Chars → Option α} {r : α}
    (h : plusG p s k = some r) : ∃ cap rest, k cap rest = some r := by
  obtain ⟨n, _, hk⟩ := firstSome_ex h
  exact ⟨s.take n, s.drop n, hk⟩

/-- A success of a literal is a success of the continuation. -/
theorem lit_ex {c : Char} {s : Chars} {k : Chars → Option α} {r : α}
    (h : lit c s k = some r) : ∃ rest, k rest = some r := by
  match s with
  | [] => simp [lit] at h
  | x :: rest =>
    rw [lit] at h
    by_cases hx : x = c
    · rw [if_pos hx] at h; exact ⟨rest, h⟩
    · rw [if_neg hx] at h; cases h

/-- A success of the optional RefNumber group is a success of the
continuation. -/
theorem refOpt_ex {s : Chars} {k : Option Chars → Chars → Option α} {r : α}
    (h : refOpt s k = some r) : ∃ b rest, k b rest = some r := by
  rw [refOpt] at h
  cases h1 : plusG isDigitChar s
      (fun cap r1 => plusG isSpaceChar r1 fun _ r2 => k (some cap) r2) with
  | some r2 =>
    rw [h1] at h
    cases h
    obtain ⟨cap, rest, hk⟩ := plusG_ex h1
    obtain ⟨_, rest2, hk2⟩ := plusG_ex hk
    exact ⟨some cap, rest2, hk2⟩
  | none =>
    rw [h1] at h
    exact ⟨none, s, h⟩

/-- A success of the PlanNumber group is a success of the continuation. -/
theorem planTry_ex {s : Chars} {k : Option Chars → Chars → Option α} {r : α}
    (h : planTry s k = some r) : ∃ b rest, k b rest = some r := by
  rw [planTry.eq_def] at h
  split at h
  · next a b c rest =>
    split at h
    · obtain ⟨_, rest2, hk⟩ := plusG_ex h
      exact ⟨some [a, b, c], rest2, hk⟩
    · cases h
  · cases h

/-- A success of the optional PlanNumber group is a success of the
continuation. -/
theorem planOpt_ex {s : Chars} {k : Option Chars → Chars → Option α} {r : α}
    (h : planOpt s k = some r) : ∃ b rest, k b rest = some r := by
  rw [planOpt] at h
  cases h1 : planTry s k with
  | some r2 => rw [h1] at h; cases h; exact planTry_ex h1
  | none => rw [h1] at h; exact ⟨none, s, h⟩

/-- A success of the Quantity token is a success of the continuation. -/
theorem qtyTok_ex {s : Chars} {k : Chars → Chars → Option α} {r : α}
    (h : qtyTok s k = some r) : ∃ cap rest, k cap rest = some r := by
  obtain ⟨d1, r1, h1⟩ := plusG_ex h
  obtain ⟨r2, h2⟩ := lit_ex h1
  obtain ⟨d2, r3, h3⟩ := plusG_ex h2
  exact ⟨_, r3, h3⟩

/-- A success of a date token is a success of the continuation. -/
theorem dateTok_ex {s : Chars} {k : Chars → Chars → Option α} {r : α}
    (h : dateTok s k = some r) : ∃ cap rest, k cap rest = some r := by
  obtain ⟨d1, r1, h1⟩ := plusG_ex h
  obtain ⟨r2, h2⟩ := lit_ex h1
  obtain ⟨d2, r3, h3⟩ := plusG_ex h2
  obtain ⟨r4, h4⟩ := lit_ex h3
  obtain ⟨d3, r5, h5⟩ := plusG_ex h4
  exact ⟨_, r5, h5⟩

/-- A success of the DateAcquired alternation is a success of the
continuation. -/
theorem dateAcqTok_ex {s : Chars} {k : Chars → Chars → Option α} {r : α}
    (h : dateAcqTok s k = some r) : ∃ cap rest, k cap rest = some r := by
  rw [dateAcqTok] at h
  cases h1 : dateTok s k with
  | some r2 => rw [h1] at h; cases h; exact dateTok_ex h1
  | none => rw [h1] at h; exact plusG_ex h

/-- A success of a currency token is a success of the continuation. -/
theorem moneyTok_ex {s : Chars} {k : Chars → Chars → Option α} {r : α}
    (h : moneyTok s k = some r) : ∃ cap rest, k cap rest = some r := by
  obtain ⟨r1, h1⟩ := lit_ex h
  obtain ⟨m, r2, h2⟩ := plusG_ex h1
  exact ⟨_, r2, h2⟩

/-- A success of the final `\s` yields a whitespace character. -/
theorem endTok_ex {s : Chars} {k : Char → Chars → Option α} {r : α}
    (h : endTok s k = some r) :
    ∃ c rest, isSpaceChar c = true ∧ k c rest = some r := by
  match s with
  | [] => simp [endTok] at h
  | c :: rest =>
    rw [endTok] at h
    by_cases hc : isSpaceChar c
    · rw [if_pos hc] at h; exact ⟨c, rest, hc, h⟩
    · rw [if_neg hc] at h; cases h

/-! ## Equivalence of the regex section scan with the spec's description -/

/-- A successful literal match peels the literal off the front. -/
theorem litMatch_eq : ∀ {lit s r : Chars}, litMatch lit s = some r → s = lit ++ r := by
  intro lit
  induction lit with
  | nil => intro s r h; simp only [litMatch, Option.some.injEq] at h; simp [h]
  | cons p ps ih =>
    intro s r h
    match s with
    | [] => simp [litMatch] at h
    | c :: cs =>
      rw [litMatch] at h
      by_cases hc : c = p
      · rw [if_pos hc] at h
        subst hc
        simpa using ih h
      · rw [if_neg hc] at h; cases h

/-- A successful label match peels the label off the front; the label is
one of the two fixed ones. -/
theorem labelAt_eq {s : Chars} {lab rest : Chars} (h : labelAt s = some (lab, rest)) :
    s = lab ++ rest ∧ (lab = shortLabel ∨ lab = longLabel) := by
  rw [labelAt] at h
  cases h1 : litMatch shortLabel s with
  | some r1 =>
    rw [h1] at h
    cases h
    exact ⟨litMatch_eq h1, Or.inl rfl⟩
  | none =>
    rw [h1] at h
    cases h2 : litMatch longLabel s with
    | some r2 => rw [h2] at h; cases h; exact ⟨litMatch_eq h2, Or.inr rfl⟩
    | none => rw [h2] at h; cases h

/-- No label matches the empty text. -/
theorem labelAt_nil : labelAt ([] : Chars) = none := by decide

/-- Fuel does not matter once it covers the remaining positions. -/
theorem firstTotalFromF_congr (t : Chars) : ∀ (f1 f2 e : Nat),
    t.length + 1 - e ≤ f1 → t.length + 1 - e ≤ f2 →
    firstTotalFromF t f1 e = firstTotalFromF t f2 e := by
  intro f1
  induction f1 with
  | zero =>
    intro f2 e h1 _
    have he : ¬ e ≤ t.length := by omega
    cases f2 with
    | zero => rfl
    | succ f2 => rw [firstTotalFromF, firstTotalFromF, if_neg he]
  | succ f1 ih =>
    intro f2 e h1 h2
    cases f2 with
    | zero =>
      have he : ¬ e ≤ t.length := by omega
      rw [firstTotalFromF, firstTotalFromF, if_neg he]
    | succ f2 =>
      rw [firstTotalFromF, firstTotalFromF]
      by_cases he : e ≤ t.length
      · rw [if_pos he, if_pos he]
        by_cases hq : isTotalStart t e
        · rw [if_pos hq, if_pos hq]
        · rw [if_neg hq, if_neg hq, ih f2 (e + 1) (by omega) (by omega)]
      · rw [if_neg he, if_neg he]

/-- The single unfolding equation of `firstTotalFrom`. -/
theorem firstTotalFrom_eq (t : Chars) (e : Nat) :
    firstTotalFrom t e = if e ≤ t.length then
      (if isTotalStart t e then some e else firstTotalFrom t (e + 1)) else none := by
  rw [firstTotalFrom]
  by_cases he : e ≤ t.length
  · have hf : t.length + 1 - e = (t.length - e) + 1 := by omega
    rw [hf, firstTotalFromF, if_pos he, if_pos he]
    by_cases hq : isTotalStart t e
    · rw [if_pos hq, if_pos hq]
    · rw [if_neg hq, if_neg hq, firstTotalFrom,
        firstTotalFromF_congr t (t.length - e) (t.length + 1 - (e + 1)) (e + 1)
          (by omega) (by omega)]
  · have hf : t.length + 1 - e = 0 := by omega
    rw [hf, firstTotalFromF, if_neg he]

/-- Fuel does not matter once it covers the remaining positions. -/
theorem occsFromF_congr (t : Chars) : ∀ (f1 f2 p : Nat),
    t.length + 1 - p ≤ f1 → t.length + 1 - p ≤ f2 →
    occsFromF t f1 p = occsFromF t f2 p := by
  intro f1
  induction f1 with
  | zero =>
    intro f2 p h1 _
    have hp : ¬ p ≤ t.length := by omega
    cases f2 with
    | zero => rfl
    | succ f2 => rw [occsFromF, occsFromF, if_neg hp]
  | succ f1 ih =>
    intro f2 p h1 h2
    cases f2 with
    | zero =>
      have hp : ¬ p ≤ t.length := by omega
      rw [occsFromF, occsFromF, if_neg hp]
    | succ f2 =>
      rw [occsFromF, occsFromF]
      by_cases hp : p ≤ t.length
      · rw [if_pos hp, if_pos hp]
        cases labelAtPos t p with
        | none => exact ih f2 (p + 1) (by omega) (by omega)
        | some lab => rw [ih f2 (p + 1) (by omega) (by omega)]
      · rw [if_neg hp, if_neg hp]

/-- The single unfolding equation of `occsFrom`. -/
theorem occsFrom_eq (t : Chars) (p : Nat) :
    occsFrom t p = if p ≤ t.length then
      (match labelAtPos t p with
       | some lab => (p, lab) :: occsFrom t (p + 1)
       | none => occsFrom t (p + 1)) else [] := by
  rw [occsFrom]
  by_cases hp : p ≤ t.length
  · have hf : t.length + 1 - p = (t.length - p) + 1 := by omega
    rw [hf, occsFromF, if_pos hp, if_pos hp]
    have hc := occsFromF_congr t (t.length - p) (t.length + 1 - (p + 1)) (p + 1)
      (by omega) (by omega)
    cases labelAtPos t p with
    | none => rw [hc, occsFrom]
    | some lab => rw [hc, occsFrom]
  · have hf : t.length + 1 - p = 0 := by omega
    rw [hf, occsFromF, if_neg hp]

/-- A found terminator is in range, at a line-start `Total`, and no
earlier position at or after the start qualifies. -/
theorem firstTotalFrom_bounds :
    ∀ {t : Chars} {e q : Nat}, firstTotalFrom t e = some q →
      e ≤ q ∧ q + totalLit.length ≤ t.length ∧ isTotalStart t q = true := by
  intro t
  have main : ∀ (fuel e q : Nat), t.length + 1 - e ≤ fuel →
      firstTotalFrom t e = some q →
      e ≤ q ∧ q + totalLit.length ≤ t.length ∧ isTotalStart t q = true := by
    intro fuel
    induction fuel with
    | zero =>
      intro e q hf h
      rw [firstTotalFrom_eq, if_neg (show ¬ e ≤ t.length by omega)] at h
      cases h
    | succ fuel ih =>
      intro e q hf h
      by_cases he : e ≤ t.length
      · by_cases hq : isTotalStart t e
        · rw [firstTotalFrom_eq, if_pos he, if_pos hq] at h
          cases h
          refine ⟨le_rfl, ?_, hq⟩
          have h2 : (litMatch totalLit (t.drop e)).isSome := by
            simp only [isTotalStart, Bool.and_eq_true] at hq
            exact hq.2
          cases h3 : litMatch totalLit (t.drop e) with
          | none => rw [h3] at h2; simp at h2
          | some r =>
            have h4 := litMatch_eq h3
            have h5 : totalLit.length ≤ (t.drop e).length := by
              rw [h4]; simp
            rw [List.length_drop] at h5
            omega
        · rw [firstTotalFrom_eq, if_pos he, if_neg hq] at h
          obtain ⟨h1, h2, h3⟩ := ih (e + 1) q (by omega) h
          exact ⟨by omega, h2, h3⟩
      · rw [firstTotalFrom_eq, if_neg he] at h
        cases h
  intro e q h
  exact main (t.length + 1 - e) e q le_rfl h

/-- The suffix-scanning `findTotal` computes exactly the spec's first
line-start `Total` and splits the text there. -/
theorem findTotal_spec :
    ∀ {t : Chars} {e : Nat}, e ≤ t.length →
      findTotal (isLineStartPos t e) (t.drop e) =
        (firstTotalFrom t e).map fun q =>
          (slice t e q, t.drop (q + totalLit.length)) := by
  intro t
  have main : ∀ (fuel e : Nat), t.length + 1 - e ≤ fuel → e ≤ t.length →
      findTotal (isLineStartPos t e) (t.drop e) =
        (firstTotalFrom t e).map fun q =>
          (slice t e q, t.drop (q + totalLit.length)) := by
    intro fuel
    induction fuel with
    | zero =>
      intro e hf he
      omega
    | succ fuel ih =>
      intro e hf he
      by_cases hq : isTotalStart t e
      · have hline : isLineStartPos t e = true := by
          simp only [isTotalStart, Bool.and_eq_true] at hq
          exact hq.1
        have hlm : (litMatch totalLit (t.drop e)).isSome := by
          simp only [isTotalStart, Bool.and_eq_true] at hq
          exact hq.2
        cases h3 : litMatch totalLit (t.drop e) with
        | none => rw [h3] at hlm; simp at hlm
        | some r =>
          have h4 := litMatch_eq h3
          have htt : tryTotal (isLineStartPos t e) (t.drop e) = some r := by
            rw [tryTotal, hline, if_pos rfl, h3]
          rw [findTotal.eq_def, htt, firstTotalFrom_eq, if_pos he, if_pos hq]
          have hr : r = t.drop (e + totalLit.length) := by
            have h5 : (t.drop e).drop totalLit.length = r := by rw [h4]; simp
            rw [← h5, List.drop_drop]
          simp [slice, hr]
      · rw [firstTotalFrom_eq, if_pos he, if_neg hq]
        have hnm : tryTotal (isLineStartPos t e) (t.drop e) = none := by
          rw [tryTotal]
          by_cases hline : isLineStartPos t e
          · rw [if_pos hline]
            cases h3 : litMatch totalLit (t.drop e) with
            | none => rfl
            | some r =>
              exfalso
              apply hq
              simp [isTotalStart, hline, h3]
          · rw [if_neg hline]
        by_cases hee : e = t.length
        · subst hee
          rw [findTotal.eq_def, hnm]
          rw [List.drop_length]
          rw [firstTotalFrom_eq]
          simp
        · have helt : e < t.length := by omega
          have hget : t[e]? = some t[e] := List.getElem?_eq_getElem helt
          have hflag : isLineStartPos t (e + 1) = (t[e] = '\n' : Bool) := by
            simp only [isLineStartPos, Nat.add_sub_cancel, List.get?_eq_getElem?]
            rw [hget]
            simp
          have hred : findTotal (isLineStartPos t e) (t.drop e) =
              (findTotal (t[e] = '\n' : Bool) (t.drop (e + 1))).map fun p =>
                (t[e] :: p.1, p.2) := by
            rw [findTotal.eq_def, hnm, List.drop_eq_getElem_cons helt]
            rfl
          rw [hred, ← hflag, ih (e + 1) (by omega) (by omega)]
          cases h5 : firstTotalFrom t (e + 1) with
          | none => rfl
          | some q =>
            obtain ⟨hq1, hq2, _⟩ := firstTotalFrom_bounds h5
            simp only [Option.map]
            have hslice : slice t e q = t[e] :: slice t (e + 1) q := by
              simp only [slice]
              rw [List.drop_eq_getElem_cons helt]
              have : q - e = (q - (e + 1)) + 1 := by omega
              rw [this, List.take_succ_cons]
            rw [hslice]
  intro e he
  exact main (t.length + 1 - e) e le_rfl he

/-- Past the end of the text there are no label occurrences. -/
theorem occsFrom_out {t : Chars} {p : Nat} (h : t.length < p) : occsFrom t p = [] := by
  rw [occsFrom_eq, if_neg (not_le.mpr h)]

/-- No label at `p`: the occurrences from `p` are those from `p + 1`. -/
theorem occsFrom_none {t : Chars} {p : Nat} (hp : p ≤ t.length)
    (h : labelAtPos t p = none) : occsFrom t p = occsFrom t (p + 1) := by
  rw [occsFrom_eq, if_pos hp, h]

/-- A label at `p` heads the occurrence list from `p`. -/
theorem occsFrom_some {t : Chars} {p : Nat} {lab : Chars} (hp : p ≤ t.length)
    (h : labelAtPos t p = some lab) :
    occsFrom t p = (p, lab) :: occsFrom t (p + 1) := by
  rw [occsFrom_eq, if_pos hp, h]

/-- Occurrences strictly below the cursor are skipped, so the occurrence
list may start at the cursor. -/
theorem specGo_peel (t : Chars) :
    ∀ (d p : Nat), specSectionsGo t (occsFrom t p) (p + d) =
      specSectionsGo t (occsFrom t (p + d)) (p + d) := by
  intro d
  induction d with
  | zero => intro p; rfl
  | succ d ih =>
    intro p
    by_cases hp : p ≤ t.length
    · have harith : p + (d + 1) = (p + 1) + d := by omega
      cases hl : labelAtPos t p with
      | none =>
        rw [occsFrom_none hp hl, harith, ih (p + 1)]
      | some lab =>
        rw [occsFrom_some hp hl, specSectionsGo, if_pos (by omega), harith,
          ih (p + 1)]
    · rw [occsFrom_out (by omega), occsFrom_out (by omega)]

/-- The last character of each label, used to see that the position right
after a label is never a line start. -/
theorem label_last {lab : Chars} (h : lab = shortLabel ∨ lab = longLabel) :
    lab[lab.length - 1]? = some 's' ∧ 0 < lab.length := by
  rcases h with h | h <;> (subst h; exact ⟨by decide, by decide⟩)

/-- One unfolding step of the fueled section scan. -/
theorem sectionScanAux_succ (fuel : Nat) (s : Chars) :
    sectionScanAux (fuel + 1) s =
      (labelAt s).elim
        (match s with
         | [] => []
         | _ :: cs => sectionScanAux fuel cs)
        (fun pr =>
          (findTotal false pr.2).elim
            (match s with
             | [] => []
             | _ :: cs => sectionScanAux fuel cs)
            fun bp => (pr.1, bp.1) :: sectionScanAux fuel bp.2) := rfl

/-- One unfolding step of the spec-side occurrence processing. -/
theorem specSectionsGo_cons (t : Chars) (p : Nat) (lab : Chars)
    (rest : List (Nat × Chars)) (cursor : Nat) :
    specSectionsGo t ((p, lab) :: rest) cursor =
      if p < cursor then specSectionsGo t rest cursor
      else
        match firstTotalFrom t (p + lab.length) with
        | none => specSectionsGo t rest cursor
        | some q =>
          (lab, slice t (p + lab.length) q) ::
            specSectionsGo t rest (q + totalLit.length) := rfl

/-- The regex scan over a suffix agrees with the spec-side processing of
the remaining label occurrences, for any cursor at or below the current
position. -/
theorem sectionScan_eq_spec :
    ∀ (fuel : Nat) (t : Chars) (p cursor : Nat),
      t.length + 1 - p ≤ fuel → cursor ≤ p →
      sectionScanAux fuel (t.drop p) = specSectionsGo t (occsFrom t p) cursor := by
  intro fuel
  induction fuel with
  | zero =>
    intro t p cursor hf hc
    rw [occsFrom_out (by omega)]
    rfl
  | succ fuel ih =>
    intro t p cursor hf hc
    cases hl : labelAt (t.drop p) with
    | none =>
      have hlp : labelAtPos t p = none := by simp [labelAtPos, hl]
      by_cases hp : p ≤ t.length
      · by_cases hpe : p = t.length
        · subst hpe
          rw [occsFrom_none hp hlp, occsFrom_out (by omega)]
          rw [sectionScanAux_succ, hl, List.drop_length]
          rfl
        · have hplt : p < t.length := by omega
          rw [occsFrom_none hp hlp]
          rw [sectionScanAux_succ, hl, List.drop_eq_getElem_cons hplt]
          exact ih t (p + 1) cursor (by omega) (by omega)
      · rw [occsFrom_out (by omega)]
        rw [sectionScanAux_succ, hl, List.drop_eq_nil_of_le (by omega)]
        rfl
    | some pr =>
      obtain ⟨lab, afterLab⟩ := pr
      obtain ⟨heq, hlabs⟩ := labelAt_eq hl
      obtain ⟨hlast, hlabpos⟩ := label_last hlabs
      have hlen : t.length - p = lab.length + afterLab.length := by
        have := congrArg List.length heq
        simpa using this
      have hplt : p < t.length := by omega
      have he : p + lab.length ≤ t.length := by omega
      have hAfter : afterLab = t.drop (p + lab.length) := by
        have h2 : (t.drop p).drop lab.length = afterLab := by rw [heq]; simp
        rw [← h2, List.drop_drop, Nat.add_comm]
      have hlp : labelAtPos t p = some lab := by simp [labelAtPos, hl]
      have hnls : isLineStartPos t (p + lab.length) = false := by
        have hg : t[p + (lab.length - 1)]? = some 's' := by
          have h3 : (t.drop p)[lab.length - 1]? = some 's' := by
            rw [heq, List.getElem?_append_left (by omega), hlast]
          rw [List.getElem?_drop] at h3
          exact h3
        simp only [isLineStartPos, List.get?_eq_getElem?]
        have h4 : p + lab.length - 1 = p + (lab.length - 1) := by omega
        rw [h4, hg]
        have h5 : ¬(p + lab.length = 0) := by omega
        simp [h5]
      have hft := findTotal_spec (t := t) (e := p + lab.length) he
      rw [hnls] at hft
      rw [← hAfter] at hft
      cases hq : firstTotalFrom t (p + lab.length) with
      | none =>
        rw [hq] at hft
        simp only [Option.map] at hft
        rw [occsFrom_some hplt.le hlp]
        rw [specSectionsGo_cons, if_neg (show ¬ p < cursor by omega), hq]
        rw [sectionScanAux_succ, hl]
        simp only [Option.elim]
        rw [hft, List.drop_eq_getElem_cons hplt]
        exact ih t (p + 1) cursor (by omega) (by omega)
      | some q =>
        rw [hq] at hft
        simp only [Option.map] at hft
        obtain ⟨hq1, hq2, _⟩ := firstTotalFrom_bounds hq
        rw [occsFrom_some hplt.le hlp]
        rw [specSectionsGo_cons, if_neg (show ¬ p < cursor by omega), hq]
        rw [sectionScanAux_succ, hl]
        simp only [Option.elim]
        rw [hft]
        simp only [Option.elim]
        have htail :
            sectionScanAux fuel (t.drop (q + totalLit.length)) =
              specSectionsGo t (occsFrom t (p + 1)) (q + totalLit.length) := by
          rw [ih t (q + totalLit.length) (q + totalLit.length) (by omega) le_rfl]
          have harith : q + totalLit.length = (p + 1) + (q + totalLit.length - (p + 1)) := by
            have : p + 1 ≤ q + totalLit.length := by omega
            omega
          rw [harith, ← specGo_peel t (q + totalLit.length - (p + 1)) (p + 1)]
        rw [htail]

/-- Every match of ROW_EXPR ends by consuming one whitespace character:
the pattern demands whitespace after the CostBasis token. -/
theorem rowCore_space {s : Chars} {caps : RowCaps} {c : Char} {rest : Chars}
    (h : rowCore s = some (caps, c, rest)) : isSpaceChar c = true := by
  rw [rowCore] at h
  obtain ⟨ref, r1, h1⟩ := refOpt_ex h
  obtain ⟨plan, r2, h2⟩ := planOpt_ex h1
  obtain ⟨desc, r3, h3⟩ := plusG_ex h2
  obtain ⟨_, r4, h4⟩ := plusG_ex h3
  obtain ⟨cusip, r5, h5⟩ := plusG_ex h4
  obtain ⟨_, r6, h6⟩ := plusG_ex h5
  obtain ⟨qty, r7, h7⟩ := qtyTok_ex h6
  obtain ⟨_, r8, h8⟩ := plusG_ex h7
  obtain ⟨da, r9, h9⟩ := dateAcqTok_ex h8
  obtain ⟨_, r10, h10⟩ := plusG_ex h9
  obtain ⟨ds, r11, h11⟩ := dateTok_ex h10
  obtain ⟨_, r12, h12⟩ := plusG_ex h11
  obtain ⟨gp, r13, h13⟩ := moneyTok_ex h12
  obtain ⟨_, r14, h14⟩ := plusG_ex h13
  obtain ⟨cb, r15, h15⟩ := moneyTok_ex h14
  obtain ⟨c2, r16, hsp, hk⟩ := endTok_ex h15
  cases hk
  exact hsp

/-- `csv.reader` over a whole text: one record per `\r\n`-terminated line,
a bare `\r\n` giving the empty record. -/
def parseCsvText (s : Chars) : List (List Chars) :=
  match s with
  | [] => []
  | '\r' :: '\n' :: rest => [] :: parseCsvText rest
  | c :: cs =>
    match h : parseRecordAux (c :: cs) with
    | none => []
    | some (fs, rest) => fs :: parseCsvText rest
termination_by s.length
decreasing_by
  · simp only [List.length_cons]; omega
  all_goals
    have := parseRecordAux_length h
    simp only [List.length_cons] at this ⊢
    omega

/-! ## Decimal lemmas: exactness within the context precision -/

/-- Fuel does not matter once it is at least `n`. -/
theorem numLenF_congr : ∀ (f1 f2 n : Nat), n ≤ f1 → n ≤ f2 →
    numLenF f1 n = numLenF f2 n := by
  intro f1
  induction f1 with
  | zero =>
    intro f2 n h1 _
    have hn : n = 0 := by omega
    subst hn
    cases f2 with
    | zero => rfl
    | succ f2 => rw [numLenF, numLenF, if_pos (by omega)]
  | succ f1 ih =>
    intro f2 n h1 h2
    cases f2 with
    | zero =>
      have hn : n = 0 := by omega
      subst hn
      rw [numLenF, numLenF, if_pos (by omega)]
    | succ f2 =>
      rw [numLenF, numLenF]
      by_cases hn : n < 10
      · rw [if_pos hn, if_pos hn]
      · rw [if_neg hn, if_neg hn, ih f2 (n / 10) (by omega) (by omega)]

/-- The single unfolding equation of `numLen`. -/
theorem numLen_eq (n : Nat) : numLen n = if n < 10 then 1 else numLen (n / 10) + 1 := by
  rw [numLen]
  match n with
  | 0 => rw [numLenF, if_pos (by omega)]
  | n + 1 =>
    rw [numLenF]
    by_cases hn : n + 1 < 10
    · rw [if_pos hn, if_pos hn]
    · rw [if_neg hn, if_neg hn, numLen,
        numLenF_congr n ((n + 1) / 10) ((n + 1) / 10) (by omega) (by omega)]

/-- A digit count is positive. -/
theorem numLen_pos (n : Nat) : 0 < numLen n := by
  rw [numLen_eq]
  split
  · omega
  · omega

/-- The digit count is monotone. -/
theorem numLen_mono : ∀ (n m : Nat), m ≤ n → numLen m ≤ numLen n := by
  intro n
  induction n using Nat.strong_induction_on with
  | _ n ih =>
    intro m hm
    by_cases hn : n < 10
    · rw [numLen_eq m, if_pos (by omega), numLen_eq n, if_pos hn]
    · rw [numLen_eq n, if_neg hn]
      by_cases hm10 : m < 10
      · rw [numLen_eq m, if_pos hm10]
        have := numLen_pos (n / 10)
        omega
      · rw [numLen_eq m, if_neg hm10]
        have h1 := ih (n / 10) (Nat.div_lt_self (by omega) (by omega))
          (m / 10) (Nat.div_le_div_right hm)
        omega

/-- Aligning at a decimal's own exponent is the identity. -/
theorem alignCoeff_self (d : Dec) : alignCoeff d d.exp = d.coeff := by
  simp [alignCoeff]

/-- The aligned coefficient is at least the raw coefficient. -/
theorem le_alignCoeff (d : Dec) (e : Int) : d.coeff ≤ alignCoeff d e := by
  rw [alignCoeff]
  exact Nat.le_mul_of_pos_right _ (Nat.pos_pow_of_pos _ (by omega))

/-- Re-aligning at a smaller exponent multiplies by the right power. -/
theorem alignCoeff_trans {d : Dec} {e1 e2 : Int} (h1 : e2 ≤ e1) (h2 : e1 ≤ d.exp) :
    alignCoeff d e1 * 10 ^ (e1 - e2).toNat = alignCoeff d e2 := by
  rw [alignCoeff, alignCoeff, mul_assoc, ← pow_add]
  have h3 : (d.exp - e1).toNat + (e1 - e2).toNat = (d.exp - e2).toNat := by omega
  rw [h3]

/-- The exponent of an exact sum is the minimum. -/
theorem addExact_exp (a b : Dec) : (addExact a b).exp = min a.exp b.exp := rfl

/-- Aligned coefficients of an exact sum add. -/
theorem alignCoeff_addExact (a b : Dec) {e : Int} (h : e ≤ min a.exp b.exp) :
    alignCoeff (addExact a b) e = alignCoeff a e + alignCoeff b e := by
  rw [addExact]
  rw [show alignCoeff ⟨alignCoeff a (min a.exp b.exp) + alignCoeff b (min a.exp b.exp),
      min a.exp b.exp⟩ e =
    (alignCoeff a (min a.exp b.exp) + alignCoeff b (min a.exp b.exp)) *
      10 ^ (min a.exp b.exp - e).toNat from rfl]
  rw [Nat.add_mul]
  rw [alignCoeff_trans h (min_le_left _ _), alignCoeff_trans h (min_le_right _ _)]

/-- Exact addition is right-commutative (it is exact, so order is free). -/
theorem addExact_rightComm (x a b : Dec) :
    addExact (addExact x a) b = addExact (addExact x b) a := by
  have hexp : (addExact (addExact x a) b).exp = (addExact (addExact x b) a).exp := by
    simp only [addExact_exp]
    rw [min_assoc, min_assoc, min_comm a.exp b.exp]
  have hm1 : min (min x.exp a.exp) b.exp = min x.exp (min a.exp b.exp) := min_assoc _ _ _
  have hco : (addExact (addExact x a) b).coeff = (addExact (addExact x b) a).coeff := by
    rw [show (addExact (addExact x a) b).coeff =
        alignCoeff (addExact x a) (min (addExact x a).exp b.exp) +
          alignCoeff b (min (addExact x a).exp b.exp) from rfl]
    rw [show (addExact (addExact x b) a).coeff =
        alignCoeff (addExact x b) (min (addExact x b).exp a.exp) +
          alignCoeff a (min (addExact x b).exp a.exp) from rfl]
    rw [alignCoeff_addExact x a (by rw [addExact_exp] at *; exact min_le_left _ _)]
    rw [alignCoeff_addExact x b (by rw [addExact_exp] at *; exact min_le_left _ _)]
    rw [addExact_exp, addExact_exp]
    rw [show min (min x.exp a.exp) b.exp = min (min x.exp b.exp) a.exp by
      rw [min_assoc, min_assoc, min_comm a.exp b.exp]]
    omega
  cases h1 : addExact (addExact x a) b with
  | mk c1 e1 =>
    cases h2 : addExact (addExact x b) a with
    | mk c2 e2 =>
      rw [h1, h2] at hexp hco
      simp only at hexp hco
      rw [hexp, hco]

/-- `pyAdd` agrees with exact addition when the result fits in the
context precision. -/
theorem pyAdd_eq_addExact {a b : Dec} (h : numLen (addExact a b).coeff ≤ decPrec) :
    pyAdd a b = addExact a b := by
  rw [pyAdd, ctxRound, if_pos h]

/-- The exponent of a left fold of exact additions only decreases. -/
theorem foldl_addExact_exp_le : ∀ (l : List Dec) (z : Dec),
    (l.foldl addExact z).exp ≤ z.exp := by
  intro l
  induction l with
  | nil => intro z; exact le_rfl
  | cons d l ih =>
    intro z
    calc (List.foldl addExact (addExact z d) l).exp ≤ (addExact z d).exp := ih _
    _ ≤ z.exp := by rw [addExact_exp]; exact min_le_left _ _

/-- The start value's aligned coefficient is bounded by the fold's
coefficient (all summands are nonnegative). -/
theorem foldl_addExact_align_le : ∀ (l : List Dec) (z : Dec),
    alignCoeff z (l.foldl addExact z).exp ≤ (l.foldl addExact z).coeff := by
  intro l
  induction l with
  | nil => intro z; simp only [List.foldl_nil]; rw [alignCoeff_self]
  | cons d l ih =>
    intro z
    have hE : (List.foldl addExact z (d :: l)).exp = (l.foldl addExact (addExact z d)).exp := rfl
    rw [List.foldl_cons]
    have h1 : alignCoeff z (l.foldl addExact (addExact z d)).exp ≤
        alignCoeff (addExact z d) (l.foldl addExact (addExact z d)).exp := by
      have hle : (l.foldl addExact (addExact z d)).exp ≤ min z.exp d.exp := by
        have := foldl_addExact_exp_le l (addExact z d)
        rw [addExact_exp] at this
        exact this
      rw [alignCoeff_addExact z d hle]
      exact Nat.le_add_right _ _
    exact le_trans h1 (ih (addExact z d))

/-- A left fold of context additions equals the exact fold as long as the
exact result fits in the context precision. -/
theorem foldl_pyAdd_eq_exact : ∀ (l : List Dec) (z : Dec),
    numLen (l.foldl addExact z).coeff ≤ decPrec →
    l.foldl pyAdd z = l.foldl addExact z := by
  intro l
  induction l with
  | nil => intro z _; rfl
  | cons d l ih =>
    intro z hbound
    have hfold : List.foldl addExact z (d :: l) = l.foldl addExact (addExact z d) := rfl
    rw [hfold] at hbound
    have hstep : numLen (addExact z d).coeff ≤ decPrec := by
      refine le_trans (numLen_mono _ _ ?_) hbound
      exact le_trans (le_alignCoeff _ _) (foldl_addExact_align_le l (addExact z d))
    rw [List.foldl_cons, List.foldl_cons, pyAdd_eq_addExact hstep, ih _ hbound]

/-- `sum(...)` is the exact decimal sum whenever that sum fits in the
28-digit context precision. -/
theorem pySum_eq_exactSum {l : List Dec} (h : numLen (exactSum l).coeff ≤ decPrec) :
    pySum l = exactSum l :=
  foldl_pyAdd_eq_exact l decZero h

/-- The rational value of an aligned coefficient. -/
theorem decValQ_align {d : Dec} {e : Int} (h : e ≤ d.exp) :
    (alignCoeff d e : ℚ) * (10 : ℚ) ^ e = decValQ d := by
  rw [alignCoeff, decValQ]
  push_cast
  rw [mul_assoc, ← zpow_natCast (10 : ℚ) (d.exp - e).toNat, ← zpow_add₀ (by norm_num : (10:ℚ) ≠ 0)]
  rw [Int.toNat_of_nonneg (by omega)]
  ring_nf

/-- Exact addition adds rational values. -/
theorem decValQ_addExact (a b : Dec) :
    decValQ (addExact a b) = decValQ a + decValQ b := by
  have h1 : decValQ (addExact a b) =
      ((alignCoeff a (min a.exp b.exp) + alignCoeff b (min a.exp b.exp) : Nat) : ℚ) *
        (10 : ℚ) ^ (min a.exp b.exp) := rfl
  rw [h1]
  push_cast
  rw [add_mul]
  rw [decValQ_align (min_le_left _ _), decValQ_align (min_le_right _ _)]

/-- The exact sum has the exact rational value of the column. -/
theorem decValQ_exactSum : ∀ (l : List Dec) (z : Dec),
    decValQ (l.foldl addExact z) = decValQ z + (l.map decValQ).sum := by
  intro l
  induction l with
  | nil => intro z; simp
  | cons d l ih =>
    intro z
    rw [List.foldl_cons, ih, decValQ_addExact, List.map_cons, List.sum_cons]
    ring

/-- Exact folds are invariant under permutation of the summands. -/
theorem foldl_addExact_perm {l1 l2 : List Dec} (h : l1.Perm l2) (z : Dec) :
    l1.foldl addExact z = l2.foldl addExact z := by
  letI : RightCommutative addExact := ⟨addExact_rightComm⟩
  exact h.foldl_eq z

/-! ## Grouping lemmas: the groups are the key-filters of the input, keyed
in first-encounter order -/

/-- The keys of the first-encounter order: keep the first occurrence of
each key and drop the later duplicates. -/
def firstOccur : List GKey → List GKey
  | [] => []
  | k :: ks => k :: (firstOccur ks).filter fun x => x ≠ k

/-- `addToGroups` keeps the key list, appending a fresh key at the end. -/
theorem addToGroups_map_fst : ∀ (gs : List (GKey × List Row)) (r : Row),
    (addToGroups gs r).map Prod.fst =
      if rowKey r ∈ gs.map Prod.fst then gs.map Prod.fst
      else gs.map Prod.fst ++ [rowKey r] := by
  intro gs r
  induction gs with
  | nil => simp [addToGroups]
  | cons kg gs ih =>
    obtain ⟨k, g⟩ := kg
    rw [addToGroups]
    by_cases hk : k = rowKey r
    · rw [if_pos hk]
      simp [hk]
    · rw [if_neg hk]
      simp only [List.map_cons, ih]
      by_cases hmem : rowKey r ∈ gs.map Prod.fst
      · rw [if_pos hmem, if_pos (by simp [hmem])]
      · rw [if_neg hmem, if_neg (by simp [hmem, hk, Ne.symm hk])]
        simp

/-- A fresh key is appended as a new singleton group. -/
theorem addToGroups_not_mem : ∀ (gs : List (GKey × List Row)) (r : Row),
    rowKey r ∉ gs.map Prod.fst →
    addToGroups gs r = gs ++ [(rowKey r, [r])] := by
  intro gs r
  induction gs with
  | nil => intro _; rfl
  | cons kg gs ih =>
    obtain ⟨k, g⟩ := kg
    intro h
    simp only [List.map_cons, List.mem_cons] at h
    push_neg at h
    rw [addToGroups, if_neg (fun he => h.1 he.symm), ih h.2]
    rfl

/-- Processing one more row updates the filter picture of the groups. -/
theorem addToGroups_spec_mem :
    ∀ (ks : List GKey) (rows : List Row) (r : Row), ks.Nodup → rowKey r ∈ ks →
      addToGroups (ks.map fun k => (k, rows.filter fun x => rowKey x = k)) r =
        ks.map fun k => (k, (rows ++ [r]).filter fun x => rowKey x = k) := by
  intro ks
  induction ks with
  | nil => intro rows r _ h; simp at h
  | cons k ks ih =>
    intro rows r hnd hmem
    simp only [List.map_cons, addToGroups]
    by_cases hk : k = rowKey r
    · rw [if_pos hk]
      have hkr : rowKey r = k := hk.symm
      have h1 : (rows ++ [r]).filter (fun x => rowKey x = k) =
          rows.filter (fun x => rowKey x = k) ++ [r] := by
        rw [List.filter_append]
        simp [hkr]
      rw [h1]
      have h2 : ∀ k2 ∈ ks, (rows ++ [r]).filter (fun x => rowKey x = k2) =
          rows.filter (fun x => rowKey x = k2) := by
        intro k2 hk2
        rw [List.filter_append]
        have h5 : k2 ≠ k := by
          intro he
          subst he
          exact (List.nodup_cons.mp hnd).1 hk2
        have h4 : ¬ rowKey r = k2 := by rw [hkr]; exact fun he => h5 he.symm
        simp [h4]
      have h3 : (ks.map fun k2 => (k2, rows.filter fun x => rowKey x = k2)) =
          ks.map fun k2 => (k2, (rows ++ [r]).filter fun x => rowKey x = k2) := by
        apply List.map_congr_left
        intro k2 hk2
        rw [h2 k2 hk2]
      rw [h3]
    · rw [if_neg hk]
      have hmem2 : rowKey r ∈ ks := by
        rcases List.mem_cons.mp hmem with he | h
        · exact absurd he.symm hk
        · exact h
      rw [ih rows r (List.nodup_cons.mp hnd).2 hmem2]
      have h1 : (rows ++ [r]).filter (fun x => rowKey x = k) =
          rows.filter (fun x => rowKey x = k) := by
        rw [List.filter_append]
        have h2 : ¬ rowKey r = k := fun he => hk he.symm
        simp [h2]
      rw [h1]

/-- Folding one more row through `buildGroups`. -/
theorem buildGroups_snoc (rows : List Row) (r : Row) :
    buildGroups (rows ++ [r]) = addToGroups (buildGroups rows) r := by
  rw [buildGroups, buildGroups, List.foldl_append]
  rfl

/-- The group keys are distinct. -/
theorem firstKeys_nodup (rows : List Row) : (firstKeys rows).Nodup := by
  induction rows using List.reverseRecOn with
  | nil => simp [firstKeys, buildGroups]
  | append_singleton rs r ih =>
    rw [firstKeys, buildGroups_snoc, addToGroups_map_fst]
    by_cases hmem : rowKey r ∈ (buildGroups rs).map Prod.fst
    · rw [if_pos hmem]; exact ih
    · rw [if_neg hmem]
      simp only [List.nodup_append]
      exact ⟨ih, by simp, by simpa using hmem⟩

/-- Every row's key appears among the group keys. -/
theorem mem_firstKeys_of_mem : ∀ {rows : List Row} {r : Row}, r ∈ rows →
    rowKey r ∈ firstKeys rows := by
  intro rows
  induction rows using List.reverseRecOn with
  | nil => intro r h; simp at h
  | append_singleton rs x ih =>
    intro r h
    rw [firstKeys, buildGroups_snoc, addToGroups_map_fst]
    rcases List.mem_append.mp h with h1 | h2
    · have := ih h1
      by_cases hmem : rowKey x ∈ (buildGroups rs).map Prod.fst
      · rw [if_pos hmem]; exact this
      · rw [if_neg hmem]; exact List.mem_append_left _ this
    · have hx : r = x := by simpa using h2
      subst hx
      by_cases hmem : rowKey r ∈ (buildGroups rs).map Prod.fst
      · rw [if_pos hmem]; exact hmem
      · rw [if_neg hmem]; simp
/-- Every group key comes from some row. -/
theorem exists_of_mem_firstKeys : ∀ {rows : List Row} {k : GKey},
    k ∈ firstKeys rows → ∃ r ∈ rows, rowKey r = k := by
  intro rows
  induction rows using List.reverseRecOn with
  | nil => intro k h; simp [firstKeys, buildGroups] at h
  | append_singleton rs x ih =>
    intro k h
    rw [firstKeys, buildGroups_snoc, addToGroups_map_fst] at h
    by_cases hmem : rowKey x ∈ (buildGroups rs).map Prod.fst
    · rw [if_pos hmem] at h
      obtain ⟨r, hr, hk⟩ := ih h
      exact ⟨r, List.mem_append_left _ hr, hk⟩
    · rw [if_neg hmem] at h
      rcases List.mem_append.mp h with h1 | h2
      · obtain ⟨r, hr, hk⟩ := ih h1
        exact ⟨r, List.mem_append_left _ hr, hk⟩
      · refine ⟨x, by simp, ?_⟩
        have h3 : k = rowKey x := by simpa using h2
        exact h3.symm

/-- The groups built by `mergeRows` are exactly, key by key in
first-encounter order, the input rows with that key. -/
theorem buildGroups_eq_filters : ∀ (rows : List Row),
    buildGroups rows = (firstKeys rows).map fun k =>
      (k, rows.filter fun r => rowKey r = k) := by
  intro rows
  induction rows using List.reverseRecOn with
  | nil => rfl
  | append_singleton rs r ih =>
    rw [buildGroups_snoc, ih]
    by_cases hmem : rowKey r ∈ firstKeys rs
    · rw [addToGroups_spec_mem (firstKeys rs) rs r (firstKeys_nodup rs) hmem]
      have hkeys : firstKeys (rs ++ [r]) = firstKeys rs := by
        rw [firstKeys, buildGroups_snoc, addToGroups_map_fst,
          if_pos (show rowKey r ∈ (buildGroups rs).map Prod.fst from hmem)]
        rfl
      rw [hkeys]
    · have hfresh : addToGroups ((firstKeys rs).map fun k =>
          (k, rs.filter fun x => rowKey x = k)) r =
          ((firstKeys rs).map fun k => (k, rs.filter fun x => rowKey x = k)) ++
            [(rowKey r, [r])] := by
        apply addToGroups_not_mem
        intro h
        apply hmem
        simpa using h
      rw [hfresh]
      have hkeys : firstKeys (rs ++ [r]) = firstKeys rs ++ [rowKey r] := by
        rw [firstKeys, buildGroups_snoc, addToGroups_map_fst,
          if_neg (show rowKey r ∉ (buildGroups rs).map Prod.fst from hmem)]
        rfl
      rw [hkeys, List.map_append]
      congr 1
      · apply List.map_congr_left
        intro k hk
        have hne : rowKey r ≠ k := fun he => hmem (he ▸ hk)
        rw [List.filter_append]
        simp [hne]
      · simp only [List.map_cons, List.map_nil]
        have h0 : rs.filter (fun x => rowKey x = rowKey r) = [] := by
          rw [List.filter_eq_nil_iff]
          intro x hx hkey
          exact hmem (by
            have : rowKey x = rowKey r := by simpa using hkey
            exact this ▸ mem_firstKeys_of_mem hx)
        rw [List.filter_append, h0]
        simp

/-- The key order of the groups is the first-occurrence order of the
input keys. -/
theorem firstKeys_eq_firstOccur : ∀ (rows : List Row),
    firstKeys rows = firstOccur (rows.map rowKey) := by
  have main : ∀ (rows : List Row) (gs : List (GKey × List Row)),
      (rows.foldl addToGroups gs).map Prod.fst =
        gs.map Prod.fst ++ (firstOccur (rows.map rowKey)).filter
          fun k => k ∉ gs.map Prod.fst := by
    intro rows
    induction rows with
    | nil => intro gs; simp [firstOccur]
    | cons r rows ih =>
      intro gs
      rw [List.foldl_cons, ih (addToGroups gs r), addToGroups_map_fst]
      rw [List.map_cons]
      rw [show firstOccur (rowKey r :: rows.map rowKey) =
        rowKey r :: (firstOccur (rows.map rowKey)).filter (fun x => x ≠ rowKey r)
        from rfl]
      by_cases hmem : rowKey r ∈ gs.map Prod.fst
      · rw [if_pos hmem]
        rw [List.filter_cons_of_neg (by simpa using hmem)]
        rw [List.filter_filter]
        congr 1
        apply List.filter_congr
        intro k _
        by_cases hkg : k ∈ gs.map Prod.fst
        · simp [hkg]
        · have : k ≠ rowKey r := fun he => hkg (he ▸ hmem)
          simp [hkg, this]
      · rw [if_neg hmem]
        rw [List.filter_cons_of_pos (by simpa using hmem)]
        rw [List.filter_filter]
        rw [List.append_assoc, List.singleton_append]
        congr 1
        congr 1
        apply List.filter_congr
        intro k _
        by_cases hkr : k = rowKey r
        · subst hkr
          simp
        · by_cases hkg : k ∈ gs.map Prod.fst
          · simp [hkg, hkr]
          · simp [hkg, hkr]
  intro rows
  have := main rows []
  simpa [firstKeys, buildGroups] using this

/-! ## Order lemmas for `sortRows` -/

/-- Character comparison is reflexive-equal. -/
theorem chCmp_eq_iff {a b : Char} : chCmp a b = Ordering.eq ↔ a = b := by
  rw [chCmp]
  split
  · next h => simp; intro he; subst he; exact absurd h (lt_irrefl _)
  · next h =>
    split
    · next h2 => simp; intro he; subst he; exact absurd h2 (lt_irrefl _)
    · next h2 => simp; exact le_antisymm (not_lt.mp h2) (not_lt.mp h)

/-- Character comparison detects strict order. -/
theorem chCmp_lt_iff {a b : Char} : chCmp a b = Ordering.lt ↔ a < b := by
  rw [chCmp]
  split
  · next h => simp [h]
  · next h =>
    split <;> simp [h]

/-- Character comparison is antisymmetric under swap. -/
theorem chCmp_swap (a b : Char) : chCmp a b = (chCmp b a).swap := by
  rcases lt_trichotomy a b with h | h | h
  · simp [chCmp, Ordering.swap, h, asymm h]
  · subst h
    simp [chCmp, Ordering.swap, lt_irrefl]
  · simp [chCmp, Ordering.swap, h, asymm h]

/-- String comparison is equality at `eq`. -/
theorem strCmp_eq_iff : ∀ {a b : Chars}, strCmp a b = Ordering.eq ↔ a = b := by
  intro a
  induction a with
  | nil => intro b; cases b <;> simp [strCmp]
  | cons x xs ih =>
    intro b
    cases b with
    | nil => simp [strCmp]
    | cons y ys =>
      rw [strCmp.eq_def]
      simp only []
      cases hc : chCmp x y with
      | eq =>
        have hxy : x = y := chCmp_eq_iff.mp hc
        subst hxy
        simp [ih]
      | lt =>
        have : x ≠ y := fun he => by
          subst he
          rw [chCmp_eq_iff.mpr rfl] at hc
          cases hc
        simp [this]
      | gt =>
        have : x ≠ y := fun he => by
          subst he
          rw [chCmp_eq_iff.mpr rfl] at hc
          cases hc
        simp [this]

/-- String comparison is reflexive-equal. -/
theorem strCmp_self (a : Chars) : strCmp a a = Ordering.eq := strCmp_eq_iff.mpr rfl

/-- One unfolding of string comparison on two nonempty strings. -/
theorem strCmp_cons (x y : Char) (xs ys : Chars) :
    strCmp (x :: xs) (y :: ys) =
      match chCmp x y with
      | Ordering.eq => strCmp xs ys
      | o => o := rfl

/-- Inversion of `Ordering.swap`. -/
theorem swap_eq_cases {o p : Ordering} (h : o = p.swap) : p = o.swap := by
  cases p <;> (subst h; rfl)

/-- String comparison is antisymmetric under swap. -/
theorem strCmp_swap : ∀ (a b : Chars), strCmp a b = (strCmp b a).swap := by
  intro a
  induction a with
  | nil => intro b; cases b <;> rfl
  | cons x xs ih =>
    intro b
    cases b with
    | nil => rfl
    | cons y ys =>
      rw [strCmp_cons, strCmp_cons]
      have hs := chCmp_swap x y
      cases hc : chCmp x y with
      | eq =>
        rw [hc] at hs
        rw [swap_eq_cases hs]
        exact ih ys
      | lt =>
        rw [hc] at hs
        rw [swap_eq_cases hs]
        rfl
      | gt =>
        rw [hc] at hs
        rw [swap_eq_cases hs]
        rfl

/-- Transitivity of strict string comparison. -/
theorem strCmp_lt_trans : ∀ (a b c : Chars), strCmp a b = Ordering.lt →
    strCmp b c = Ordering.lt → strCmp a c = Ordering.lt := by
  intro a
  induction a with
  | nil =>
    intro b c hab hbc
    cases b with
    | nil => cases hab
    | cons y ys =>
      cases c with
      | nil => cases hbc
      | cons z zs => rfl
  | cons x xs ih =>
    intro b c hab hbc
    cases b with
    | nil => cases hab
    | cons y ys =>
      cases c with
      | nil => cases hbc
      | cons z zs =>
        rw [strCmp_cons] at hab hbc ⊢
        cases hxy : chCmp x y with
        | gt => rw [hxy] at hab; cases hab
        | lt =>
          rw [hxy] at hab
          cases hyz : chCmp y z with
          | gt => rw [hyz] at hbc; cases hbc
          | lt =>
            rw [hyz] at hbc
            have : x < z := lt_trans (chCmp_lt_iff.mp hxy) (chCmp_lt_iff.mp hyz)
            rw [chCmp_lt_iff.mpr this]
          | eq =>
            have : y = z := chCmp_eq_iff.mp hyz
            subst this
            rw [chCmp_lt_iff.mpr (chCmp_lt_iff.mp hxy)]
        | eq =>
          have hxyeq : x = y := chCmp_eq_iff.mp hxy
          subst hxyeq
          rw [hxy] at hab
          cases hyz : chCmp x z with
          | gt => rw [hyz] at hbc; cases hbc
          | lt => rfl
          | eq =>
            rw [hyz] at hbc
            exact ih ys zs hab hbc

/-- Lexicographic comparison of key tuples, component by component. -/
def lexList : List Chars → List Chars → Ordering
  | [], [] => Ordering.eq
  | [], _ :: _ => Ordering.lt
  | _ :: _, [] => Ordering.gt
  | x :: xs, y :: ys =>
    match strCmp x y with
    | Ordering.eq => lexList xs ys
    | o => o

/-- One unfolding of the key comparison. -/
theorem lexList_cons (x y : Chars) (xs ys : List Chars) :
    lexList (x :: xs) (y :: ys) =
      match strCmp x y with
      | Ordering.eq => lexList xs ys
      | o => o := rfl

/-- Key comparison is antisymmetric under swap. -/
theorem lexList_swap : ∀ (a b : List Chars), lexList a b = (lexList b a).swap := by
  intro a
  induction a with
  | nil => intro b; cases b <;> rfl
  | cons x xs ih =>
    intro b
    cases b with
    | nil => rfl
    | cons y ys =>
      rw [lexList_cons, lexList_cons]
      have hs := strCmp_swap x y
      cases hc : strCmp x y with
      | eq =>
        rw [hc] at hs
        rw [swap_eq_cases hs]
        exact ih ys
      | lt =>
        rw [hc] at hs
        rw [swap_eq_cases hs]
        rfl
      | gt =>
        rw [hc] at hs
        rw [swap_eq_cases hs]
        rfl

/-- Transitivity of the non-strict key comparison. -/
theorem lexList_le_trans : ∀ (a b c : List Chars),
    lexList a b ≠ Ordering.gt → lexList b c ≠ Ordering.gt →
    lexList a c ≠ Ordering.gt := by
  intro a
  induction a with
  | nil =>
    intro b c hab hbc
    cases c with
    | nil =>
      cases b with
      | nil => exact hab
      | cons y ys => exact absurd rfl hbc
    | cons z zs => simp [lexList]
  | cons x xs ih =>
    intro b c hab hbc
    cases b with
    | nil => exact absurd rfl hab
    | cons y ys =>
      cases c with
      | nil => exact absurd rfl hbc
      | cons z zs =>
        rw [lexList_cons] at hab hbc ⊢
        cases hxy : strCmp x y with
        | gt => rw [hxy] at hab; exact absurd rfl hab
        | lt =>
          rw [hxy] at hab
          cases hyz : strCmp y z with
          | gt => rw [hyz] at hbc; exact absurd rfl hbc
          | lt =>
            rw [strCmp_lt_trans x y z hxy hyz]
            simp
          | eq =>
            have : y = z := strCmp_eq_iff.mp hyz
            subst this
            rw [hxy]
            simp
        | eq =>
          have hxyeq : x = y := strCmp_eq_iff.mp hxy
          subst hxyeq
          rw [hxy] at hab
          cases hyz : strCmp x z with
          | gt => rw [hyz] at hbc; exact absurd rfl hbc
          | lt => simp
          | eq =>
            rw [hyz] at hbc
            exact ih ys zs hab hbc

/-- The sort key of a row, the absent RefNumber read as the empty string
(that case is exactly where Python's comparison would raise). -/
def sortKeyList (r : Row) : List Chars :=
  [r.Category, r.Description, r.DateAcquired, r.DateSold, refFallback r]

/-- `rowLe` is the non-strict lexicographic comparison of the sort keys. -/
theorem rowLe_iff (r1 r2 : Row) :
    rowLe r1 r2 = true ↔
      lexList (sortKeyList r1) (sortKeyList r2) ≠ Ordering.gt := by
  rw [rowLe, keyCmp, sortKeyList, sortKeyList, lexList_cons]
  cases hc : strCmp r1.Category r2.Category with
  | lt => simp
  | gt => simp
  | eq =>
    rw [lexList_cons]
    cases hd : strCmp r1.Description r2.Description with
    | lt => simp
    | gt => simp
    | eq =>
      rw [lexList_cons]
      cases ha : strCmp r1.DateAcquired r2.DateAcquired with
      | lt => simp
      | gt => simp
      | eq =>
        rw [lexList_cons]
        cases hs : strCmp r1.DateSold r2.DateSold with
        | lt => simp
        | gt => simp
        | eq =>
          rw [lexList_cons]
          cases h1 : r1.RefNumber with
          | none =>
            cases h2 : r2.RefNumber with
            | none => simp [refCmp, refFallback, h1, h2, strCmp, lexList]
            | some b =>
              simp only [refCmp, refFallback, h1, h2, Option.getD]
              cases hr : strCmp [] b <;> simp [lexList]
          | some a =>
            cases h2 : r2.RefNumber with
            | none =>
              simp only [refCmp, refFallback, h1, h2, Option.getD]
              cases hr : strCmp a [] <;> simp [lexList]
            | some b =>
              simp only [refCmp, refFallback, h1, h2, Option.getD]
              cases hr : strCmp a b <;> simp [lexList]

/-- The sort relation is total. -/
theorem rowLe_total (r1 r2 : Row) : (rowLe r1 r2 || rowLe r2 r1) = true := by
  rw [Bool.or_eq_true]
  by_cases h : lexList (sortKeyList r1) (sortKeyList r2) = Ordering.gt
  · right
    rw [rowLe_iff]
    rw [lexList_swap, h]
    simp [Ordering.swap]
  · left
    exact (rowLe_iff r1 r2).mpr h

/-- The sort relation is transitive. -/
theorem rowLe_trans (r1 r2 r3 : Row) (h1 : rowLe r1 r2 = true)
    (h2 : rowLe r2 r3 = true) : rowLe r1 r3 = true :=
  (rowLe_iff r1 r3).mpr
    (lexList_le_trans _ _ _ ((rowLe_iff r1 r2).mp h1) ((rowLe_iff r2 r3).mp h2))

/-- Sorting is idempotent: the sorted output is pairwise ordered, and a
stable sort leaves an ordered list unchanged. -/
theorem sortRows_idempotent (rows : List Row) :
    sortRows (sortRows rows) = sortRows rows := by
  rw [sortRows, sortRows]
  exact List.mergeSort_of_sorted (List.sorted_mergeSort rowLe_trans rowLe_total rows)

/-- The Python comparison is defined on any two records that both carry a
RefNumber. -/
theorem keyCmp_isSome {r1 r2 : Row} (h1 : r1.RefNumber.isSome = true)
    (h2 : r2.RefNumber.isSome = true) : (keyCmp r1 r2).isSome = true := by
  obtain ⟨a, ha⟩ := Option.isSome_iff_exists.mp h1
  obtain ⟨b, hb⟩ := Option.isSome_iff_exists.mp h2
  rw [keyCmp]
  cases strCmp r1.Category r2.Category <;>
    cases strCmp r1.Description r2.Description <;>
    cases strCmp r1.DateAcquired r2.DateAcquired <;>
    cases strCmp r1.DateSold r2.DateSold <;>
    simp [refCmp, ha, hb]

/-! ## Round trip of the tabular rendering -/

/-- Splitting a delimiter-free prefix off a text. -/
theorem takeWhile_all_append {p : Char → Bool} :
    ∀ (f : Chars) (c0 : Char) (rest : Chars), (∀ c ∈ f, p c = true) → p c0 = false →
      (f ++ c0 :: rest).takeWhile p = f ∧ (f ++ c0 :: rest).dropWhile p = c0 :: rest := by
  intro f
  induction f with
  | nil =>
    intro c0 rest _ hc0
    simp [List.takeWhile, List.dropWhile, hc0]
  | cons x xs ih =>
    intro c0 rest hall hc0
    have hx : p x = true := hall x (by simp)
    obtain ⟨h1, h2⟩ := ih c0 rest (fun c hc => hall c (by simp [hc])) hc0
    constructor
    · simp only [List.cons_append, List.takeWhile_cons, hx, if_pos]
      rw [h1]
    · simp only [List.cons_append, List.dropWhile_cons, hx, if_pos]
      rw [h2]

/-- Reading back an escaped quoted field body. -/
theorem parseQuoted_escape :
    ∀ (f : Chars) (rest : Chars), (∀ d, rest.head? = some d → d ≠ '"') →
      parseQuoted (escapeQuotes f ++ '"' :: rest) = some (f, rest) := by
  intro f
  induction f with
  | nil =>
    intro rest hrest
    rw [escapeQuotes]
    simp only [List.nil_append]
    match rest with
    | [] => simp [parseQuoted]
    | d :: rest2 => simp [parseQuoted, hrest d rfl]
  | cons x xs ih =>
    intro rest hrest
    rw [escapeQuotes]
    by_cases hx : x = '"'
    · rw [if_pos hx]
      subst hx
      simp only [List.cons_append]
      rw [parseQuoted.eq_def]
      simp only [reduceIte]
      rw [ih rest hrest]
      rfl
    · rw [if_neg hx]
      simp only [List.cons_append]
      rw [parseQuoted.eq_def]
      simp only [if_neg hx]
      rw [ih rest hrest]
      rfl

/-- Reading back one encoded field followed by a delimiter. -/
theorem parseField_write (f : Chars) (single : Bool) (c0 : Char) (rest : Chars)
    (hc0 : c0 = ',' ∨ c0 = '\r') :
    parseField (writeField single f ++ c0 :: rest) = some (f, c0 :: rest) := by
  have hc0q : c0 ≠ '"' := by rcases hc0 with h | h <;> (subst h; decide)
  have hc0p : (!(c0 = ',' || c0 = '\r' || c0 = '\n') : Bool) = false := by
    rcases hc0 with h | h <;> (subst h; decide)
  rw [writeField]
  by_cases hq : (needsQuote f || (single && f.isEmpty)) = true
  · rw [if_pos hq]
    simp only [List.cons_append, List.append_assoc]
    rw [parseField, if_pos rfl]
    exact parseQuoted_escape f (c0 :: rest) (fun d hd => by
      have h := hd
      simp at h
      exact h ▸ hc0q)
  · rw [if_neg hq]
    have hq2 : (needsQuote f || (single && f.isEmpty)) = false := by
      cases h : (needsQuote f || (single && f.isEmpty)) with
      | true => exact absurd h hq
      | false => rfl
    have hnq : needsQuote f = false := (Bool.or_eq_false_iff.mp hq2).1
    have hall0 : ∀ c ∈ f, (c = ',' || c = '"' || c = '\r' || c = '\n') = false := by
      intro c hc
      rw [needsQuote] at hnq
      rcases h4 : (decide (c = ',') || decide (c = '"') || decide (c = '\r') ||
          decide (c = '\n')) with _ | _
      · rfl
      · exfalso
        have h5 : f.any (fun x => x = ',' || x = '"' || x = '\r' || x = '\n') = true :=
          List.any_eq_true.mpr ⟨c, hc, h4⟩
        rw [h5] at hnq
        cases hnq
    have hall : ∀ c ∈ f, (!(c = ',' || c = '\r' || c = '\n') : Bool) = true := by
      intro c hc
      have h3 := hall0 c hc
      simp only [Bool.or_eq_false_iff, decide_eq_false_iff_not] at h3
      obtain ⟨⟨⟨ha, hb⟩, hcr⟩, hd⟩ := h3
      simp [ha, hcr, hd]
    obtain ⟨h1, h2⟩ := takeWhile_all_append f c0 rest hall hc0p
    match hf : f ++ c0 :: rest with
    | [] => simp at hf
    | c :: cs =>
      have hcq : c ≠ '"' := by
        cases f with
        | nil =>
          have : c = c0 := by simpa using congrArg (fun l => l.headD ' ') hf.symm
          rw [this]
          exact hc0q
        | cons x xs =>
          have hx : c = x := by simpa using congrArg (fun l => l.headD ' ') hf.symm
          have h3 := hall0 x (by simp)
          simp only [Bool.or_eq_false_iff, decide_eq_false_iff_not] at h3
          rw [hx]
          exact h3.1.1.2
      rw [parseField, if_neg hcq]
      rw [← hf, h1, h2]

theorem parseRecordAux_write :
    ∀ (fs : List Chars) (single : Bool) (f : Chars) (rest : Chars),
      parseRecordAux (writeField single f ++ (writeFieldsTail fs ++ '\r' :: '\n' :: rest)) =
        some (f :: fs, rest) := by
  intro fs
  induction fs with
  | nil =>
    intro single f rest
    rw [writeFieldsTail]
    simp only [List.nil_append]
    have hpf := parseField_write f single '\r' ('\n' :: rest) (Or.inr rfl)
    rw [parseRecordAux.eq_def]
    split
    · next heq => rw [hpf] at heq; cases heq
    · next f2 rest2 heq =>
      rw [hpf] at heq
      simp only [Option.some.injEq, Prod.mk.injEq] at heq
      obtain ⟨hf2, hr2⟩ := heq
      subst hf2
      subst hr2
      rfl
  | cons g gs ih =>
    intro single f rest
    rw [writeFieldsTail]
    have hpf := parseField_write f single ','
        (writeField false g ++ (writeFieldsTail gs ++ '\r' :: '\n' :: rest)) (Or.inl rfl)
    simp only [List.append_assoc] at hpf
    rw [parseRecordAux.eq_def]
    split
    · next heq =>
      simp only [List.append_assoc, List.cons_append] at heq
      rw [hpf] at heq
      cases heq
    · next f2 rest2 heq =>
      simp only [List.append_assoc, List.cons_append] at heq
      rw [hpf] at heq
      simp only [Option.some.injEq, Prod.mk.injEq] at heq
      obtain ⟨hf2, hr2⟩ := heq
      subst hf2
      subst hr2
      have hihg := ih false g rest
      simp only [List.append_assoc] at hihg
      have hres : Option.map (fun p => ((f :: p.1 : List Chars), (p.2 : Chars)))
          (parseRecordAux (writeField false g ++ (writeFieldsTail gs ++ '\r' :: '\n' :: rest)))
          = some (f :: g :: gs, rest) := by
        rw [hihg]
        rfl
      exact hres

/-- One written record followed by any tail reads back as that record. -/
theorem parseRecordAux_writeRecord (r : List Chars) (hr : r ≠ []) (rest : Chars) :
    parseRecordAux (writeRecord r ++ rest) = some (r, rest) := by
  match r with
  | [] => exact absurd rfl hr
  | [f] =>
    rw [writeRecord]
    have h := parseRecordAux_write [] true f rest
    rw [writeFieldsTail] at h
    simp only [List.nil_append] at h
    simp only [List.append_assoc, List.cons_append, List.nil_append]
    exact h
  | f :: g :: fs =>
    rw [writeRecord]
    · have h := parseRecordAux_write (g :: fs) false f rest
      simp only [List.append_assoc, List.cons_append, List.nil_append] at h ⊢
      exact h
    · exact fun h2 => List.noConfusion h2

/-- A nonempty record's encoding starts with a character other than the
record terminator. -/
theorem writeRecord_head (r : List Chars) (hr : r ≠ []) :
    ∃ c cs, writeRecord r = c :: cs ∧ c ≠ '\r' := by
  have key : ∀ (single : Bool) (f : Chars) (t0 : Char) (ts : Chars),
      (single = true ∨ t0 ≠ '\r') →
      ∃ c cs, writeField single f ++ t0 :: ts = c :: cs ∧ c ≠ '\r' := by
    intro single f t0 ts hst
    rw [writeField]
    by_cases hq : (needsQuote f || (single && f.isEmpty)) = true
    · rw [if_pos hq]
      exact ⟨'"', _, rfl, by decide⟩
    · rw [if_neg hq]
      match f with
      | [] =>
        refine ⟨t0, ts, rfl, ?_⟩
        rcases hst with hs | ht
        · exfalso
          apply hq
          rw [hs]
          rw [needsQuote]
          simp [List.isEmpty]
        · exact ht
      | x :: xs =>
        refine ⟨x, xs ++ t0 :: ts, rfl, ?_⟩
        intro hx
        apply hq
        subst hx
        rw [needsQuote]
        simp
  match r with
  | [] => exact absurd rfl hr
  | [f] =>
    rw [writeRecord]
    exact key true f '\r' ['\n'] (Or.inl rfl)
  | f :: g :: fs =>
    rw [writeRecord]
    · match htail : writeFieldsTail (g :: fs) ++ ['\r', '\n'] with
      | [] => simp [writeFieldsTail] at htail
      | t0 :: ts =>
        have ht0 : t0 = ',' := by
          rw [writeFieldsTail] at htail
          simp only [List.cons_append, List.cons.injEq] at htail
          exact htail.1.symm
        have h := key false f t0 ts (Or.inr (by rw [ht0]; decide))
        simp only [List.append_assoc] at h ⊢
        rw [htail]
        exact h
    · exact fun h2 => List.noConfusion h2

/-- Writing any record list and reading the text back is the identity. -/
theorem parseCsvText_writeCsv : ∀ (records : List (List Chars)),
    parseCsvText (writeCsv records) = records := by
  intro records
  induction records with
  | nil =>
    rw [writeCsv]
    simp [parseCsvText]
  | cons r rs ih =>
    have hsplit : writeCsv (r :: rs) = writeRecord r ++ writeCsv rs := by
      rw [writeCsv, writeCsv]
      simp
    rw [hsplit]
    by_cases hr : r = []
    · subst hr
      rw [writeRecord]
      have hstep : parseCsvText ('\r' :: '\n' :: writeCsv rs) = [] :: parseCsvText (writeCsv rs) := by
        rw [parseCsvText.eq_def]
        rfl
      simp only [List.cons_append, List.nil_append]
      rw [hstep, ih]
    · obtain ⟨c0, cs0, hw, hc0⟩ := writeRecord_head r hr
      have hpr : parseRecordAux (c0 :: (cs0 ++ writeCsv rs)) = some (r, writeCsv rs) := by
        have := parseRecordAux_writeRecord r hr (writeCsv rs)
        rw [hw] at this
        simpa using this
      rw [hw]
      simp only [List.cons_append]
      rw [parseCsvText.eq_def]
      split
      · next h2 => exact absurd h2 (by simp)
      · next rest2 h2 =>
        exfalso
        simp only [List.cons.injEq] at h2
        exact hc0 h2.1
      · next c cs h2 h3 =>
        split
        · next heq =>
          rw [show c :: cs = c0 :: (cs0 ++ writeCsv rs) from h3.symm] at heq
          rw [hpr] at heq
          cases heq
        · next fs rest2 heq =>
          rw [show c :: cs = c0 :: (cs0 ++ writeCsv rs) from h3.symm] at heq
          rw [hpr] at heq
          simp only [Option.some.injEq, Prod.mk.injEq] at heq
          obtain ⟨hfs, hrest⟩ := heq
          subst hfs
          subst hrest
          rw [ih]

/-! ## The dollar prefix of a rendered sum -/

theorem digitChar_not_dollar (d : Nat) : digitChar d ≠ '$' := by
  match d with
  | 0 | 1 | 2 | 3 | 4 | 5 | 6 | 7 | 8 => decide
  | n + 9 =>
    have h9 : digitChar (n + 9) = '9' := rfl
    rw [h9]
    decide

/-- Fuel does not matter once it is at least `n`. -/
theorem natDigitsF_congr : ∀ (f1 f2 n : Nat), n ≤ f1 → n ≤ f2 →
    natDigitsF f1 n = natDigitsF f2 n := by
  intro f1
  induction f1 with
  | zero =>
    intro f2 n h1 _
    have hn : n = 0 := by omega
    subst hn
    cases f2 with
    | zero => rfl
    | succ f2 => rw [natDigitsF, natDigitsF, if_pos (by omega)]
  | succ f1 ih =>
    intro f2 n h1 h2
    cases f2 with
    | zero =>
      have hn : n = 0 := by omega
      subst hn
      rw [natDigitsF, natDigitsF, if_pos (by omega)]
    | succ f2 =>
      rw [natDigitsF, natDigitsF]
      by_cases hn : n < 10
      · rw [if_pos hn, if_pos hn]
      · rw [if_neg hn, if_neg hn, ih f2 (n / 10) (by omega) (by omega)]

/-- The single unfolding equation of `natDigits`. -/
theorem natDigits_eq (n : Nat) : natDigits n =
    if n < 10 then [digitChar n] else natDigits (n / 10) ++ [digitChar (n % 10)] := by
  rw [natDigits]
  match n with
  | 0 => rw [natDigitsF, if_pos (by omega)]
  | n + 1 =>
    rw [natDigitsF]
    by_cases hn : n + 1 < 10
    · rw [if_pos hn, if_pos hn]
    · rw [if_neg hn, if_neg hn, natDigits,
        natDigitsF_congr n ((n + 1) / 10) ((n + 1) / 10) (by omega) (by omega)]

theorem natDigits_ne_nil : ∀ (n : Nat), natDigits n ≠ [] := by
  intro n
  rw [natDigits_eq]
  split
  · simp
  · simp

theorem mem_natDigits : ∀ (n : Nat) (c : Char), c ∈ natDigits n → ∃ d, c = digitChar d := by
  intro n
  induction n using Nat.strong_induction_on with
  | _ n ih =>
    intro c hc
    rw [natDigits_eq] at hc
    by_cases h : n < 10
    · rw [if_pos h] at hc
      exact ⟨n, by simpa using hc⟩
    · rw [if_neg h] at hc
      rcases List.mem_append.mp hc with h1 | h2
      · exact ih (n / 10) (Nat.div_lt_self (by omega) (by omega)) c h1
      · exact ⟨n % 10, by simpa using h2⟩

/-- Fuel does not matter once it is at least the length. -/
theorem groupRevF_congr : ∀ (f1 f2 : Nat) (l : Chars), l.length ≤ f1 → l.length ≤ f2 →
    groupRevF f1 l = groupRevF f2 l := by
  intro f1
  induction f1 with
  | zero =>
    intro f2 l h1 _
    have hn : l = [] := by
      cases l with
      | nil => rfl
      | cons c cs => simp at h1
    subst hn
    cases f2 with
    | zero => rfl
    | succ f2 => rw [groupRevF, groupRevF, if_pos (by simp)]
  | succ f1 ih =>
    intro f2 l h1 h2
    cases f2 with
    | zero =>
      have hn : l = [] := by
        cases l with
        | nil => rfl
        | cons c cs => simp at h2
      subst hn
      rw [groupRevF, groupRevF, if_pos (by simp)]
    | succ f2 =>
      rw [groupRevF, groupRevF]
      by_cases hl : l.length ≤ 3
      · rw [if_pos hl, if_pos hl]
      · rw [if_neg hl, if_neg hl,
          ih f2 (l.drop 3) (by simp; omega) (by simp; omega)]

/-- The single unfolding equation of `groupRev`. -/
theorem groupRev_eq (l : Chars) : groupRev l =
    if l.length ≤ 3 then l else l.take 3 ++ ',' :: groupRev (l.drop 3) := by
  rw [groupRev]
  match hlen : l.length with
  | 0 =>
    rw [groupRevF, if_pos (by omega)]
  | m + 1 =>
    rw [groupRevF]
    by_cases hl : l.length ≤ 3
    · rw [if_pos hl, if_pos (show m + 1 ≤ 3 by omega)]
    · rw [if_neg hl, if_neg (show ¬ m + 1 ≤ 3 by omega), groupRev,
        groupRevF_congr m (l.drop 3).length (l.drop 3) (by simp; omega) (le_refl _)]

theorem mem_groupRev : ∀ (l : Chars) (c : Char), c ∈ groupRev l → c ∈ l ∨ c = ',' := by
  have main : ∀ (n : Nat) (l : Chars), l.length ≤ n →
      ∀ (c : Char), c ∈ groupRev l → c ∈ l ∨ c = ',' := by
    intro n
    induction n with
    | zero =>
      intro l hl c hc
      have h0 : l = [] := by
        cases l with
        | nil => rfl
        | cons x xs => simp at hl
      subst h0
      rw [groupRev_eq, if_pos (by simp)] at hc
      exact Or.inl hc
    | succ n ih =>
      intro l hl c hc
      rw [groupRev_eq] at hc
      by_cases h3 : l.length ≤ 3
      · rw [if_pos h3] at hc
        exact Or.inl hc
      · rw [if_neg h3] at hc
        rcases List.mem_append.mp hc with h1 | h2
        · exact Or.inl (List.mem_of_mem_take h1)
        · rcases List.mem_cons.mp h2 with he | h4
          · exact Or.inr he
          · rcases ih (l.drop 3) (by simp; omega) c h4 with h5 | h5
            · exact Or.inl (List.mem_of_mem_drop h5)
            · exact Or.inr h5
  intro l
  exact main l.length l (le_refl _)

theorem groupRev_ne_nil (l : Chars) (h : l ≠ []) : groupRev l ≠ [] := by
  rw [groupRev_eq]
  split
  · exact h
  · simp

/-- A string with a dollar-free nonempty prefix does not start with `$`. -/
theorem startsWithDollar_append_of (w : Chars) (rest : Chars) (hne : w ≠ [])
    (hmem : ∀ c ∈ w, c ≠ '$') : startsWithDollar (w ++ rest) = false := by
  match w with
  | [] => exact absurd rfl hne
  | c0 :: cs0 =>
    simp only [List.cons_append, startsWithDollar]
    simpa using hmem c0 (by simp)

/-- The integer part of the fixed/scientific rendering is a nonempty
dollar-free string. -/
theorem intPart_facts (digs : Chars) (hd : digs ≠ []) (hdig : ∀ c ∈ digs, c ≠ '$')
    (dp : Int) :
    (if dp ≤ 0 then ['0']
     else if dp ≥ (digs.length : Int) then
       digs ++ List.replicate (dp - (digs.length : Int)).toNat '0'
     else digs.take dp.toNat) ≠ [] ∧
    ∀ c ∈ (if dp ≤ 0 then ['0']
     else if dp ≥ (digs.length : Int) then
       digs ++ List.replicate (dp - (digs.length : Int)).toNat '0'
     else digs.take dp.toNat), c ≠ '$' := by
  split
  · refine ⟨by simp, ?_⟩
    intro c hc
    have h0 : c = '0' := by simpa using hc
    rw [h0]
    decide
  · split
    · refine ⟨by simp [hd], ?_⟩
      intro c hc
      rcases List.mem_append.mp hc with h1 | h2
      · exact hdig c h1
      · have : c = '0' := List.eq_of_mem_replicate h2
        rw [this]; decide
    · next h1 h2 =>
      constructor
      · simp only [ne_eq, List.take_eq_nil_iff, not_or]
        exact ⟨by omega, hd⟩
      · intro c hc
        exact hdig c (List.mem_of_mem_take hc)

/-- A nonempty dollar-free string keeps both properties under thousands
separators. -/
theorem withThousands_facts (s : Chars) (hne : s ≠ []) (hmem : ∀ c ∈ s, c ≠ '$') :
    withThousands s ≠ [] ∧ ∀ c ∈ withThousands s, c ≠ '$' := by
  constructor
  · rw [withThousands]
    simp only [ne_eq, List.reverse_eq_nil_iff]
    exact groupRev_ne_nil _ (by simpa using hne)
  · intro c hc
    rw [withThousands] at hc
    rcases mem_groupRev _ _ (List.mem_reverse.mp hc) with h1 | h1
    · exact hmem c (List.mem_reverse.mp h1)
    · rw [h1]; decide

/-- The rendering of a decimal never starts with a dollar sign. -/
theorem pyFormatComma_no_dollar (x : Dec) :
    startsWithDollar (pyFormatComma x) = false := by
  have hdig : ∀ c ∈ natDigits x.coeff, c ≠ '$' := by
    intro c hc
    obtain ⟨d, hd2⟩ := mem_natDigits x.coeff c hc
    rw [hd2]
    exact digitChar_not_dollar d
  have hip := intPart_facts (natDigits x.coeff) (natDigits_ne_nil x.coeff) hdig
    (if x.exp ≤ 0 ∧ x.exp + (natDigits x.coeff).length > -6
     then x.exp + (natDigits x.coeff).length else 1)
  have hwt := withThousands_facts _ hip.1 hip.2
  simp only [pyFormatComma]
  rw [List.append_assoc]
  exact startsWithDollar_append_of _ _ hwt.1 hwt.2

/-! ## Aggregation: per-group structure of the merge -/

/-- A row whose three numeric columns all parse as decimals (every row the
grammar emits does: Quantity matches `\d+\.\d+` and the money columns match
`\$[0-9,.]+` with at most one point once commas are stripped). -/
def numericOk (r : Row) : Bool :=
  (moneyToDec r.Quantity).isSome && (moneyToDec r.GrossProceeds).isSome &&
    (moneyToDec r.CostBasis).isSome

theorem mapM_moneyToDec_isSome : ∀ (vals : List Chars),
    (∀ v ∈ vals, (moneyToDec v).isSome = true) →
    ∃ ds, vals.mapM moneyToDec = some ds := by
  intro vals
  induction vals with
  | nil => intro _; exact ⟨[], rfl⟩
  | cons v vs ih =>
    intro h
    obtain ⟨d, hd⟩ := Option.isSome_iff_exists.mp (h v (by simp))
    obtain ⟨ds, hds⟩ := ih fun x hx => h x (by simp [hx])
    refine ⟨d :: ds, ?_⟩
    rw [List.mapM_cons, hd, hds]
    rfl

theorem sumColumn_spec {v0 : Chars} {vs : List Chars} {ds : List Dec}
    (h : (v0 :: vs).mapM moneyToDec = some ds) :
    sumColumn (v0 :: vs) =
      some ((if startsWithDollar v0 then ['$'] else []) ++ pyFormatComma (pySum ds)) := by
  rw [sumColumn, h]
  rfl

theorem sumColumn_prefix {v0 : Chars} {vs : List Chars} {out : Chars}
    (h : sumColumn (v0 :: vs) = some out) :
    startsWithDollar out = startsWithDollar v0 := by
  rw [sumColumn] at h
  cases hm : (v0 :: vs).mapM moneyToDec with
  | none => rw [hm] at h; cases h
  | some ds =>
    rw [hm] at h
    simp only [Option.map, Option.some.injEq] at h
    subst h
    by_cases hd : startsWithDollar v0 = true
    · rw [hd, if_pos rfl]
      rfl
    · have hd2 : startsWithDollar v0 = false := by
        cases h2 : startsWithDollar v0 with
        | true => exact absurd h2 hd
        | false => rfl
      rw [hd2, if_neg (by simp)]
      rw [List.nil_append, pyFormatComma_no_dollar]

theorem mergeHelper_spec (g0 : Row) (gs : List Row)
    (h : ∀ r ∈ g0 :: gs, numericOk r = true) :
    ∃ m, mergeHelper (g0 :: gs) = some m ∧
      m.Category = g0.Category ∧ m.Description = g0.Description ∧
      m.CUSIP = g0.CUSIP ∧ m.DateAcquired = g0.DateAcquired ∧
      m.DateSold = g0.DateSold ∧
      m.RefNumber = some [] ∧ m.PlanNumber = some [] ∧
      sumColumn ((g0 :: gs).map Row.Quantity) = some m.Quantity ∧
      sumColumn ((g0 :: gs).map Row.GrossProceeds) = some m.GrossProceeds ∧
      sumColumn ((g0 :: gs).map Row.CostBasis) = some m.CostBasis ∧
      startsWithDollar m.Quantity = startsWithDollar g0.Quantity ∧
      startsWithDollar m.GrossProceeds = startsWithDollar g0.GrossProceeds ∧
      startsWithDollar m.CostBasis = startsWithDollar g0.CostBasis := by
  have hcol : ∀ (f : Row → Chars), (∀ r ∈ g0 :: gs, (moneyToDec (f r)).isSome = true) →
      ∃ out, sumColumn ((g0 :: gs).map f) = some out ∧
        startsWithDollar out = startsWithDollar (f g0) := by
    intro f hf
    obtain ⟨ds, hds⟩ := mapM_moneyToDec_isSome ((g0 :: gs).map f) (by
      intro v hv
      obtain ⟨r, hr, hrv⟩ := List.mem_map.mp hv
      exact hrv ▸ hf r hr)
    rw [List.map_cons] at hds
    have hsum := sumColumn_spec hds
    rw [List.map_cons]
    exact ⟨_, hsum, sumColumn_prefix hsum⟩
  obtain ⟨q, hq, hqp⟩ := hcol Row.Quantity fun r hr => by
    have := h r hr; rw [numericOk] at this; simp at this; exact this.1.1
  obtain ⟨gp, hgp, hgpp⟩ := hcol Row.GrossProceeds fun r hr => by
    have := h r hr; rw [numericOk] at this; simp at this; exact this.1.2
  obtain ⟨cb, hcb, hcbp⟩ := hcol Row.CostBasis fun r hr => by
    have := h r hr; rw [numericOk] at this; simp at this; exact this.2
  refine ⟨{ g0 with RefNumber := some [], PlanNumber := some [], Quantity := q, GrossProceeds := gp, CostBasis := cb }, ?_, rfl, rfl, rfl, rfl, rfl, rfl, rfl, hq, hgp, hcb, hqp, hgpp, hcbp⟩
  rw [mergeHelper]
  rw [hq, hgp, hcb]
  rfl

theorem mapM_some_of_all {α β : Type} (f : α → Option β) :
    ∀ (ks : List α), (∀ k ∈ ks, (f k).isSome = true) →
      ∃ ms, ks.mapM f = some ms ∧ ms.length = ks.length ∧
        ∀ i (hi : i < ks.length) (hi2 : i < ms.length),
          f (ks.get ⟨i, hi⟩) = some (ms.get ⟨i, hi2⟩) := by
  intro ks
  induction ks with
  | nil => intro _; exact ⟨[], rfl, rfl, by intro i hi; simp at hi⟩
  | cons k ks ih =>
    intro h
    obtain ⟨m, hm⟩ := Option.isSome_iff_exists.mp (h k (by simp))
    obtain ⟨ms, hms, hlen, hidx⟩ := ih fun x hx => h x (by simp [hx])
    refine ⟨m :: ms, ?_, by simp [hlen], ?_⟩
    · rw [List.mapM_cons, hm, hms]
      rfl
    · intro i hi hi2
      match i with
      | 0 => simpa using hm
      | i + 1 =>
        simp only [List.get_cons_succ]
        exact hidx i (by simpa using hi) (by simpa using hi2)

theorem mapM_moneyToDec_eq_map : ∀ {vals : List Chars} {ds : List Dec},
    vals.mapM moneyToDec = some ds →
      ds = vals.map fun v => (moneyToDec v).getD decZero := by
  intro vals
  induction vals with
  | nil => intro ds h; simp only [List.mapM_nil] at h; cases h; rfl
  | cons v vs ih =>
    intro ds h
    rw [List.mapM_cons] at h
    cases hv : moneyToDec v with
    | none => rw [hv] at h; cases h
    | some d =>
      rw [hv] at h
      cases hvs : vs.mapM moneyToDec with
      | none => rw [hvs] at h; cases h
      | some ds2 =>
        rw [hvs] at h
        simp only [Option.bind_eq_bind, Option.some_bind, Option.pure_def,
          Option.some.injEq] at h
        subst h
        rw [List.map_cons, ← ih hvs, hv]
        rfl

theorem mapM_moneyToDec_mem : ∀ {vals : List Chars} {ds : List Dec},
    vals.mapM moneyToDec = some ds → ∀ v ∈ vals, (moneyToDec v).isSome = true := by
  intro vals
  induction vals with
  | nil => intro ds _ v hv; simp at hv
  | cons v0 vs ih =>
    intro ds h v hv
    rw [List.mapM_cons] at h
    cases hv0 : moneyToDec v0 with
    | none => rw [hv0] at h; cases h
    | some d =>
      rw [hv0] at h
      cases hvs : vs.mapM moneyToDec with
      | none => rw [hvs] at h; cases h
      | some ds2 =>
        rcases List.mem_cons.mp hv with he | hm
        · rw [he, hv0]; rfl
        · exact ih hvs v hm

set_option maxRecDepth 50000

/-! ## Concrete documents and records used by the claim theorems -/

/-- The worked example line of the specification, with its line terminator. -/
def c1line : Chars :=
  ("1234 R18 ALPHABET INC CL C  12345A678  1.000000 01/01/20 02/01/20 $2,000.00 $1,999.00\n").toList

/-- The record the parser actually extracts from `c1line`: the greedy
`[\w ]+` keeps one of the two spaces before the CUSIP inside Description. -/
def c1row : Row :=
  ⟨shortLabel, some "1234".toList, some "R18".toList, "ALPHABET INC CL C ".toList,
   "12345A678".toList, "1.000000".toList, "01/01/20".toList, "02/01/20".toList,
   "$2,000.00".toList, "$1,999.00".toList⟩

/-- The worked example record as the specification states it (no trailing
space in Description). -/
def c4row : Row :=
  ⟨shortLabel, some "1234".toList, some "R18".toList, "ALPHABET INC CL C".toList,
   "12345A678".toList, "1.000000".toList, "01/01/20".toList, "02/01/20".toList,
   "$2,000.00".toList, "$1,999.00".toList⟩

/-- A record whose Quantity has 29 significant digits, one more than the
context precision. -/
def c2row : Row :=
  { c4row with Quantity := "10000000000000000000000.000004".toList }

/-- Two records of one group with quantities `1.000000` and `2.000000`. -/
def c2ra : Row := c4row

/-- See `c2ra`. -/
def c2rb : Row :=
  { c4row with RefNumber := some "5678".toList, Quantity := "2.000000".toList }

/-- A record whose Quantity carries no dollar prefix. -/
def c6a : Row :=
  ⟨shortLabel, some "1".toList, none, "X".toList, "C1".toList, "1.00".toList,
   "01/01/20".toList, "02/01/20".toList, "$2.00".toList, "$1.00".toList⟩

/-- Same group as `c6a` but the Quantity is dollar-prefixed. -/
def c6b : Row := { c6a with RefNumber := some "2".toList, Quantity := "$2.00".toList }

/-- A record whose optional RefNumber and PlanNumber are absent. -/
def c8row : Row := { c1row with RefNumber := none, PlanNumber := none }

/-- A row line with no character after the CostBasis token. -/
def c10line : Chars :=
  ("ALPHABET INC CL C  12345A678  1.000000 01/01/20 02/01/20 $2,000.00 $1,999.00").toList

/-- A document with a label occurrence inside the span of an earlier
section: the Long label on line two lies between the Short label and the
one `Total` line. -/
def doc3 : Chars :=
  ("Short Term – Noncovered Securities\nLong Term – Noncovered Securities\n1234 R18 ALPHABET INC CL C  12345A678  1.000000 01/01/20 02/01/20 $2,000.00 $1,999.00\nTotal\n").toList

/-- Section extraction as the claim words it: every terminated label
occurrence yields the span up to the first subsequent line-start `Total`,
with no cursor skipping occurrences inside earlier sections. -/
def specAllSections (t : Chars) : List (Chars × Chars) :=
  (occsFrom t 0).filterMap fun pl =>
    (firstTotalFrom t (pl.1 + pl.2.length)).map fun q =>
      (pl.2, slice t (pl.1 + pl.2.length) q)

/-- A document whose section holds one row without RefNumber and one with:
their sort keys compare `None` against a string. -/
def doc7 : Chars :=
  ("Short Term – Noncovered Securities\nALPHABET INC CL C\n12345A678\n1.000000 01/01/20 02/01/20 $2,000.00 $1,999.00\n1234 R18 ALPHABET INC CL C\n12345A678\n1.000000 01/01/20 02/01/20 $2,000.00 $1,999.00\nTotal\n").toList

/-- The first row of `doc7`: no RefNumber. -/
def c7a : Row :=
  ⟨shortLabel, none, none, "ALPHABET INC CL C".toList, "12345A678".toList,
   "1.000000".toList, "01/01/20".toList, "02/01/20".toList,
   "$2,000.00".toList, "$1,999.00".toList⟩

/-- The second row of `doc7`: RefNumber and PlanNumber present. -/
def c7b : Row :=
  { c7a with RefNumber := some "1234".toList, PlanNumber := some "R18".toList }


/-! ## The claims -/

/-- C1 (as corrected): the worked example line yields exactly one record,
with Category the section label, RefNumber `1234`, PlanNumber `R18`,
CUSIP `12345A678`, Quantity `1.000000`, the two dates, the two money
columns — and Description `ALPHABET INC CL C ` with one trailing space,
which the greedy `[\w ]+` keeps ahead of the `\s+` separator. -/
theorem parseSection_worked_example :
    parseSection c1line shortLabel = [c1row] := by decide

/-- C1 counterexample to the spec as stated: the Description of the
extracted record is not `ALPHABET INC CL C`; it carries a trailing
space. -/
theorem parseSection_example_cex :
    (parseSection c1line shortLabel).map Row.Description =
      [("ALPHABET INC CL C ").toList] ∧
    (parseSection c1line shortLabel).map Row.Description ≠
      [("ALPHABET INC CL C").toList] := by
  refine ⟨by decide, by decide⟩

/-- C2 (as corrected): when the exact sum of a column fits the context
precision of 28 significant digits, the rendered sum is that exact sum,
whose rational value is exactly the sum of the summands' values; in
particular quantities `1.000000` and `2.000000` merge to `3.000000`. -/
theorem mergeRows_sum_exact {v0 : Chars} {vs : List Chars} {ds : List Dec}
    (hm : (v0 :: vs).mapM moneyToDec = some ds)
    (hfit : numLen (exactSum ds).coeff ≤ decPrec) :
    sumColumn (v0 :: vs) =
      some ((if startsWithDollar v0 then ['$'] else []) ++ pyFormatComma (exactSum ds)) ∧
    decValQ (exactSum ds) = (ds.map decValQ).sum ∧
    (mergeRows [c2ra, c2rb]).map (fun ms => ms.map Row.Quantity) =
      some [("3.000000").toList] := by
  refine ⟨?_, ?_, by decide⟩
  · rw [sumColumn_spec hm, pySum_eq_exactSum hfit]
  · rw [exactSum, decValQ_exactSum]
    simp [decValQ, decZero]

/-- C2 witness: the spec's own example discharges the hypotheses. -/
theorem mergeRows_sum_exact_witness :
    (("1.000000".toList :: ["2.000000".toList]).mapM moneyToDec =
      some [⟨1000000, -6⟩, ⟨2000000, -6⟩]) ∧
    (numLen (exactSum [⟨1000000, -6⟩, ⟨2000000, -6⟩]).coeff ≤ decPrec) ∧
    (sumColumn ("1.000000".toList :: ["2.000000".toList]) =
      some ((if startsWithDollar "1.000000".toList then ['$'] else []) ++
        pyFormatComma (exactSum [⟨1000000, -6⟩, ⟨2000000, -6⟩])) ∧
    decValQ (exactSum [⟨1000000, -6⟩, ⟨2000000, -6⟩]) =
      ([(⟨1000000, -6⟩ : Dec), ⟨2000000, -6⟩].map decValQ).sum ∧
    (mergeRows [c2ra, c2rb]).map (fun ms => ms.map Row.Quantity) =
      some [("3.000000").toList]) :=
  ⟨by decide, by decide, mergeRows_sum_exact (by decide) (by decide)⟩

/-- C2 counterexample to exactness in general: a 29-significant-digit
quantity is rounded by the context when summed, so the merged value is no
longer the exact decimal sum of the group (here a one-member group). -/
theorem mergeRows_sum_exact_cex :
    moneyToDec c2row.Quantity = some ⟨10000000000000000000000000004, -6⟩ ∧
    (mergeRows [c2row]).map (fun ms => ms.map Row.Quantity) =
      some [("10,000,000,000,000,000,000,000.00000").toList] ∧
    moneyToDec ("10,000,000,000,000,000,000,000.00000").toList =
      some ⟨1000000000000000000000000000, -5⟩ ∧
    decValQ ⟨1000000000000000000000000000, -5⟩ ≠
      decValQ ⟨10000000000000000000000000004, -6⟩ := by
  refine ⟨by decide, by decide, by decide, ?_⟩
  rw [decValQ, decValQ]
  norm_num

/-- C3 (as corrected): section extraction behaves as the spec words it
only with a cursor: every label occurrence at or after the end of the
previously consumed section that has a later line-start `Total` yields
the span up to that first `Total`; occurrences with no terminator, and
occurrences inside an already extracted section, yield nothing; the rows
of the extracted sections are concatenated in document order. -/
theorem parsePdfText_eq_specSections (t : Chars) :
    parsePdfText t = (specSections t).flatMap fun s => parseSection s.2 s.1 := by
  have h := sectionScan_eq_spec (t.length + 1) t 0 0 (by omega) (by omega)
  rw [List.drop_zero] at h
  rw [parsePdfText, findSections, specSections, h]

/-- C3 counterexample to the claim as stated: in `doc3` the Long label
occurrence is terminated by the document's one `Total` line, and its span
holds a row, yet `parsePdf` emits no record for it — the occurrence lies
inside the Short section already matched. -/
theorem parsePdfText_spec_cex :
    parsePdfText doc3 ≠ (specAllSections doc3).flatMap (fun s => parseSection s.2 s.1) ∧
    ((specAllSections doc3).flatMap (fun s => parseSection s.2 s.1)).map Row.Category =
      [shortLabel, longLabel] ∧
    (parsePdfText doc3).map Row.Category = [shortLabel] := by
  refine ⟨by decide, by decide, by decide⟩

/-- C4 (confirmed): the interchange rendering of the worked example record
opens its block with `TD`, `N711`, `C1`, `L1`, then the P-line joining
RefNumber, PlanNumber and Description with single spaces. -/
theorem parseAndPrintRow_example :
    parseAndPrintRowLines c4row =
      some ["TD".toList, "N711".toList, "C1".toList, "L1".toList,
        ("P1234 R18 ALPHABET INC CL C").toList, ("D01/01/20").toList,
        ("D02/01/20").toList, ("$1,999.00").toList, ("$2,000.00").toList,
        "$".toList, "^".toList] := by decide

/-- C5 (confirmed): on rows whose numeric columns all parse (as every row
the grammar emits does), `mergeRows` succeeds with exactly one merged
record per distinct key, in first-encounter order; each merged record
takes its non-summed fields from its group's first member, clears
RefNumber and PlanNumber to the empty string, sums each numeric column
over the group, and keeps the first member's dollar prefix. -/
theorem mergeRows_grouping (rows : List Row)
    (hnum : ∀ r ∈ rows, numericOk r = true) :
    firstKeys rows = firstOccur (rows.map rowKey) ∧
    (firstKeys rows).Nodup ∧
    ∃ merged, mergeRows rows = some merged ∧
      merged.length = (firstKeys rows).length ∧
      ∀ i (hi : i < (firstKeys rows).length) (hi2 : i < merged.length),
        ∃ g0 gs,
          rows.filter (fun r => rowKey r = (firstKeys rows).get ⟨i, hi⟩) = g0 :: gs ∧
          (merged.get ⟨i, hi2⟩).Category = g0.Category ∧
          (merged.get ⟨i, hi2⟩).Description = g0.Description ∧
          (merged.get ⟨i, hi2⟩).CUSIP = g0.CUSIP ∧
          (merged.get ⟨i, hi2⟩).DateAcquired = g0.DateAcquired ∧
          (merged.get ⟨i, hi2⟩).DateSold = g0.DateSold ∧
          (merged.get ⟨i, hi2⟩).RefNumber = some [] ∧
          (merged.get ⟨i, hi2⟩).PlanNumber = some [] ∧
          sumColumn ((g0 :: gs).map Row.Quantity) = some (merged.get ⟨i, hi2⟩).Quantity ∧
          sumColumn ((g0 :: gs).map Row.GrossProceeds) = some (merged.get ⟨i, hi2⟩).GrossProceeds ∧
          sumColumn ((g0 :: gs).map Row.CostBasis) = some (merged.get ⟨i, hi2⟩).CostBasis ∧
          startsWithDollar (merged.get ⟨i, hi2⟩).Quantity = startsWithDollar g0.Quantity ∧
          startsWithDollar (merged.get ⟨i, hi2⟩).GrossProceeds = startsWithDollar g0.GrossProceeds ∧
          startsWithDollar (merged.get ⟨i, hi2⟩).CostBasis = startsWithDollar g0.CostBasis := by
  refine ⟨firstKeys_eq_firstOccur rows, firstKeys_nodup rows, ?_⟩
  have hfilter : ∀ k ∈ firstKeys rows, ∃ g0 gs,
      rows.filter (fun r => rowKey r = k) = g0 :: gs := by
    intro k hk
    obtain ⟨r, hr, hkey⟩ := exists_of_mem_firstKeys hk
    have hmem : r ∈ rows.filter (fun r => rowKey r = k) :=
      List.mem_filter.mpr ⟨hr, by simp [hkey]⟩
    match hf : rows.filter (fun r => rowKey r = k) with
    | [] => rw [hf] at hmem; simp at hmem
    | g0 :: gs => exact ⟨g0, gs, rfl⟩
  have hgroupnum : ∀ k ∈ firstKeys rows, ∀ r ∈ rows.filter (fun r => rowKey r = k),
      numericOk r = true := by
    intro k _ r hr
    exact hnum r (List.mem_filter.mp hr).1
  have hall : ∀ kg ∈ buildGroups rows, (mergeHelper kg.2).isSome = true := by
    intro kg hkg
    rw [buildGroups_eq_filters] at hkg
    obtain ⟨k, hk, hkg2⟩ := List.mem_map.mp hkg
    obtain ⟨g0, gs, hf⟩ := hfilter k hk
    have h2 : kg.2 = g0 :: gs := by rw [← hkg2, hf]
    rw [h2]
    obtain ⟨m, hm, _⟩ := mergeHelper_spec g0 gs (by
      rw [← hf]
      exact hgroupnum k hk)
    rw [hm]
    rfl
  obtain ⟨merged, hmapm, hlen, hidx⟩ :=
    mapM_some_of_all (fun kg => mergeHelper kg.2) (buildGroups rows) hall
  have hbglen : (buildGroups rows).length = (firstKeys rows).length := by
    rw [firstKeys, List.length_map]
  refine ⟨merged, ?_, by omega, ?_⟩
  · rw [mergeRows]
    exact hmapm
  · intro i hi hi2
    have hib : i < (buildGroups rows).length := by omega
    have hkmem : (firstKeys rows).get ⟨i, hi⟩ ∈ firstKeys rows := List.get_mem _ _ _
    obtain ⟨g0, gs, hf⟩ := hfilter _ hkmem
    refine ⟨g0, gs, hf, ?_⟩
    have hopt : (buildGroups rows)[i]? =
        some ((firstKeys rows).get ⟨i, hi⟩,
          rows.filter fun r => rowKey r = (firstKeys rows).get ⟨i, hi⟩) := by
      rw [buildGroups_eq_filters rows, List.getElem?_map]
      rw [List.getElem?_eq_getElem hi]
      simp [List.get_eq_getElem]
    have hget : (buildGroups rows).get ⟨i, hib⟩ =
        ((firstKeys rows).get ⟨i, hi⟩,
          rows.filter fun r => rowKey r = (firstKeys rows).get ⟨i, hi⟩) := by
      have h3 : (buildGroups rows)[i]? = some ((buildGroups rows).get ⟨i, hib⟩) := by
        rw [List.get_eq_getElem, List.getElem?_eq_getElem hib]
      rw [h3] at hopt
      exact Option.some.inj hopt
    have hstep := hidx i hib hi2
    rw [hget] at hstep
    simp only at hstep
    rw [hf] at hstep
    obtain ⟨m, hm, hprops⟩ := mergeHelper_spec g0 gs (by
      rw [← hf]
      exact hgroupnum _ hkmem)
    rw [hm] at hstep
    have hme : m = merged.get ⟨i, hi2⟩ := by
      simpa using hstep
    rw [← hme]
    exact hprops

/-- C5 witness: two rows of one group with parsing numeric columns. -/
theorem mergeRows_grouping_witness :
    (∀ r ∈ [c6a, c6b], numericOk r = true) ∧
    (firstKeys [c6a, c6b] = firstOccur ([c6a, c6b].map rowKey) ∧
    (firstKeys [c6a, c6b]).Nodup ∧
    ∃ merged, mergeRows [c6a, c6b] = some merged ∧
      merged.length = (firstKeys [c6a, c6b]).length ∧
      ∀ i (hi : i < (firstKeys [c6a, c6b]).length) (hi2 : i < merged.length),
        ∃ g0 gs,
          [c6a, c6b].filter (fun r => rowKey r = (firstKeys [c6a, c6b]).get ⟨i, hi⟩) = g0 :: gs ∧
          (merged.get ⟨i, hi2⟩).Category = g0.Category ∧
          (merged.get ⟨i, hi2⟩).Description = g0.Description ∧
          (merged.get ⟨i, hi2⟩).CUSIP = g0.CUSIP ∧
          (merged.get ⟨i, hi2⟩).DateAcquired = g0.DateAcquired ∧
          (merged.get ⟨i, hi2⟩).DateSold = g0.DateSold ∧
          (merged.get ⟨i, hi2⟩).RefNumber = some [] ∧
          (merged.get ⟨i, hi2⟩).PlanNumber = some [] ∧
          sumColumn ((g0 :: gs).map Row.Quantity) = some (merged.get ⟨i, hi2⟩).Quantity ∧
          sumColumn ((g0 :: gs).map Row.GrossProceeds) = some (merged.get ⟨i, hi2⟩).GrossProceeds ∧
          sumColumn ((g0 :: gs).map Row.CostBasis) = some (merged.get ⟨i, hi2⟩).CostBasis ∧
          startsWithDollar (merged.get ⟨i, hi2⟩).Quantity = startsWithDollar g0.Quantity ∧
          startsWithDollar (merged.get ⟨i, hi2⟩).GrossProceeds = startsWithDollar g0.GrossProceeds ∧
          startsWithDollar (merged.get ⟨i, hi2⟩).CostBasis = startsWithDollar g0.CostBasis) :=
  ⟨by decide, mergeRows_grouping [c6a, c6b] (by decide)⟩

/-- C6 (as corrected): when every summand of the column carries the same
dollar prefix and the exact total fits the context precision, the
rendered column sum is invariant under permutation of the group
members. -/
theorem sumColumn_perm_invariant (vals1 vals2 : List Chars) (ds1 : List Dec)
    (hperm : vals1.Perm vals2) (h1 : vals1.mapM moneyToDec = some ds1)
    (hfit : numLen (exactSum ds1).coeff ≤ decPrec)
    (hpre : ∀ v ∈ vals1, ∀ w ∈ vals1, startsWithDollar v = startsWithDollar w) :
    sumColumn vals1 = sumColumn vals2 := by
  match hv1 : vals1, hv2 : vals2 with
  | [], l2 =>
    have h0 : l2 = [] := hperm.symm.eq_nil
    rw [h0]
  | v0 :: vs, [] =>
    exact absurd hperm.eq_nil (by simp)
  | v0 :: vs, w0 :: ws =>
    obtain ⟨ds2, h2⟩ := mapM_moneyToDec_isSome (w0 :: ws) (by
      intro v hv
      exact mapM_moneyToDec_mem h1 v (hperm.mem_iff.mpr hv))
    have hmap1 := mapM_moneyToDec_eq_map h1
    have hmap2 := mapM_moneyToDec_eq_map h2
    have hdperm : ds1.Perm ds2 := by
      rw [hmap1, hmap2]
      exact hperm.map _
    have hex : exactSum ds1 = exactSum ds2 := foldl_addExact_perm hdperm decZero
    have hfit2 : numLen (exactSum ds2).coeff ≤ decPrec := hex ▸ hfit
    have hs1 := sumColumn_spec h1
    have hs2 := sumColumn_spec h2
    rw [hs1, hs2]
    rw [pySum_eq_exactSum hfit, pySum_eq_exactSum hfit2, hex]
    have hw0 : startsWithDollar w0 = startsWithDollar v0 := by
      have hw0m : w0 ∈ v0 :: vs := hperm.mem_iff.mpr (by simp)
      exact hpre w0 hw0m v0 (by simp)
    rw [hw0]

/-- C6 witness: swapping the spec example's two quantities. -/
theorem sumColumn_perm_invariant_witness :
    (["1.000000".toList, "2.000000".toList].Perm
      ["2.000000".toList, "1.000000".toList]) ∧
    (["1.000000".toList, "2.000000".toList].mapM moneyToDec =
      some [⟨1000000, -6⟩, ⟨2000000, -6⟩]) ∧
    (numLen (exactSum [⟨1000000, -6⟩, ⟨2000000, -6⟩]).coeff ≤ decPrec) ∧
    (∀ v ∈ ["1.000000".toList, "2.000000".toList],
      ∀ w ∈ ["1.000000".toList, "2.000000".toList],
        startsWithDollar v = startsWithDollar w) ∧
    sumColumn ["1.000000".toList, "2.000000".toList] =
      sumColumn ["2.000000".toList, "1.000000".toList] :=
  ⟨by decide, by decide, by decide, by decide,
   sumColumn_perm_invariant ["1.000000".toList, "2.000000".toList]
     ["2.000000".toList, "1.000000".toList] [⟨1000000, -6⟩, ⟨2000000, -6⟩]
     (by decide) (by decide) (by decide) (by decide)⟩

/-- C6 counterexample to order-independence in general: the dollar prefix
of the merged value follows whichever group member comes first, so two
permutations of one group render different Quantity strings. -/
theorem mergeRows_perm_cex :
    List.Perm [c6a, c6b] [c6b, c6a] ∧
    rowKey c6a = rowKey c6b ∧
    (mergeRows [c6a, c6b]).map (fun ms => ms.map Row.Quantity) =
      some [("3.00").toList] ∧
    (mergeRows [c6b, c6a]).map (fun ms => ms.map Row.Quantity) =
      some [("$3.00").toList] := by
  refine ⟨by decide, by decide, by decide, by decide⟩

/-- C7 (as corrected): the comparison Python actually evaluates raises on
`None` versus a string, so it is defined on two records only when both
carry a RefNumber; the model's sort order — the key comparison with the
absent RefNumber read as the empty string — is total and transitive, and
sorting with it is idempotent. -/
theorem sortRows_total_idempotent :
    (∀ r1 r2 : Row, (rowLe r1 r2 || rowLe r2 r1) = true) ∧
    (∀ r1 r2 r3 : Row, rowLe r1 r2 = true → rowLe r2 r3 = true → rowLe r1 r3 = true) ∧
    (∀ rows : List Row, sortRows (sortRows rows) = sortRows rows) ∧
    (∀ r1 r2 : Row, r1.RefNumber.isSome = true → r2.RefNumber.isSome = true →
      (keyCmp r1 r2).isSome = true) :=
  ⟨rowLe_total, rowLe_trans, sortRows_idempotent,
   fun _ _ h1 h2 => keyCmp_isSome h1 h2⟩

/-- C7 counterexample to the claim as stated: `doc7` parses to two
records, one without RefNumber and one with, and the comparison of their
sort keys is undefined (Python raises `TypeError`), so the sort order is
not total on the records `parsePdf` can produce. -/
theorem keyCmp_typeerror_cex :
    parsePdfText doc7 = [c7a, c7b] ∧ keyCmp c7a c7b = none := by
  refine ⟨by decide, by decide⟩

/-- C8 (as corrected): rendering any record list in tabular mode and
re-parsing the text reproduces the header and the rendered field strings
of every record exactly; a record whose optional RefNumber or PlanNumber
was absent reads back as the empty string, not as the absent marker. -/
theorem writeTabular_roundtrip (rows : List Row) :
    parseCsvText (writeTabular rows) = fieldNames :: rows.map rowToStrings := by
  rw [writeTabular, parseCsvText_writeCsv]

/-- C8 counterexample to field-value identity: a record with RefNumber
and PlanNumber absent renders and re-parses to the empty string in those
positions, which differs from the record's original values. -/
theorem writeTabular_roundtrip_cex :
    parseCsvText (writeTabular [c8row]) = [fieldNames, rowToStrings c8row] ∧
    (rowToStrings c8row).map some ≠ pyValues c8row := by
  constructor
  · rw [writeTabular, parseCsvText_writeCsv]
    rfl
  · decide

/-- C9 (confirmed): invoked with an argument count other than exactly one
input path, the interchange mode exits with status 1 and the usage
message on standard error, producing no interchange output. -/
theorem txfMain_usage_error (argv : List Chars) (h : argv.length ≠ 2) :
    txfMain argv = TxfOutcome.usage (usageMsg argv) 1 := by
  rw [txfMain, if_pos h]

/-- C9 witness: a bare program name is one argument, not two. -/
theorem txfMain_usage_error_witness :
    (["prog".toList].length ≠ 2) ∧
    txfMain ["prog".toList] = TxfOutcome.usage (usageMsg ["prog".toList]) 1 :=
  ⟨by decide, txfMain_usage_error ["prog".toList] (by decide)⟩

/-- C10 (confirmed): every match of the row pattern consumes a whitespace
character after the CostBasis token, so a line well-formed in all nine
fields but ending right after CostBasis yields no record, while the same
line with a line terminator yields one. -/
theorem row_requires_trailing_whitespace :
    (∀ (s : Chars) (caps : RowCaps) (c : Char) (rest : Chars),
      rowCore s = some (caps, c, rest) → isSpaceChar c = true) ∧
    parseSection c10line shortLabel = [] ∧
    (parseSection (c10line ++ ['\n']) shortLabel).length = 1 :=
  ⟨fun _ _ _ _ h => rowCore_space h, by decide, by decide⟩


end Mssb
